import Mathlib

/-!
Shallow embedding of the qvz codebook-generation core (src/src/codebook.c,
src/include/codebook.h).  C doubles are modelled as real numbers; flat C
arrays indexed by arithmetic on (column, symbol) are modelled as functions
with pointwise update; fallible lookups return Option and the fatal
assertion in choose_quantizer is modelled with Except.  Primitives that
live in source files outside src/ (alphabet.c, pmf.c, quantizer.c, well.c)
are modelled from the spec and marked as such in their doc comments.
-/

namespace QVZ

noncomputable section

/-! ## Alphabets -/

/-- Modelled from the spec: alphabet.c is not in src/.  An alphabet is an
ordered sequence of unique symbols (§4.1); the trivial constructor
yields the set 0..n-1. -/
def alloc_alphabet (n : ℕ) : List ℕ := List.range n

/-- Modelled from the spec: index lookup returning a sentinel
(ALPHABET_SYMBOL_NOT_FOUND, here none) for a missing symbol (§4.1). -/
def get_symbol_index (a : List ℕ) (s : ℕ) : Option ℕ :=
  match a with
  | [] => none
  | x :: xs => if x = s then some 0 else (get_symbol_index xs s).map (· + 1)

/-- Modelled from the spec: insertion keeping the ascending order of the
symbol list, dropping duplicates (§4.1, union preserves ascending order). -/
def insert_sorted (s : ℕ) : List ℕ → List ℕ
  | [] => [s]
  | x :: xs => if s < x then s :: x :: xs else if s = x then x :: xs else x :: insert_sorted s xs

/-- Modelled from the spec: set union of two alphabets, result kept in
ascending symbol order (§4.1). -/
def alphabet_union (a b : List ℕ) : List ℕ :=
  b.foldl (fun acc s => insert_sorted s acc) a

/-- Modelled from the spec: duplicate_alphabet returns a copy (§4.1). -/
def duplicate_alphabet (a : List ℕ) : List ℕ := a

/-! ## PMFs -/

/-- Modelled from the spec: pmf.c is not in src/.  A PMF over an alphabet of
size asize carries one real per symbol and a ready flag distinguishing raw
counts from normalized probabilities (§3, §4.2).  The single val field
plays the role of the counts array before normalization and of the
probability array afterwards. -/
structure PmfT where
  asize : ℕ
  val : ℕ → ℝ
  ready : Bool

def dummy_pmf : PmfT := ⟨0, fun _ => 0, false⟩

/-- Total mass of the stored vector. -/
def pmf_total (p : PmfT) : ℝ := ∑ i in Finset.range p.asize, p.val i

/-- Modelled from the spec: probability of a symbol; an unready PMF is
normalized on read (§4.2).  Division by a zero total yields the junk value
0, matching the generator's skip-empty-context convention (§4.5). -/
def get_probability (p : PmfT) (i : ℕ) : ℝ :=
  if p.ready then p.val i else p.val i / pmf_total p

/-- Modelled from the spec: a freshly allocated PMF has zero counts and is
not ready (§4.2). -/
def alloc_pmf (n : ℕ) : PmfT := ⟨n, fun _ => 0, false⟩

/-- Modelled from the spec: increment bumps the count at a symbol (§4.2). -/
def pmf_increment (p : PmfT) (s : ℕ) : PmfT :=
  ⟨p.asize, Function.update p.val s (p.val s + 1), p.ready⟩

/-- Modelled from the spec: combine computes OUT[s] = wa*P[s] + wb*Q[s]
over probabilities and marks the output ready (§4.2).  The output size is
the destination alphabet size n. -/
def combine_pmfs (a b : PmfT) (wa wb : ℝ) (n : ℕ) : PmfT :=
  ⟨n, fun i => wa * get_probability a i + wb * get_probability b i, true⟩

/-- Modelled from the spec: renormalize divides by the total mass (§4.2). -/
def renormalize_pmf (p : PmfT) : PmfT :=
  ⟨p.asize, fun i => p.val i / pmf_total p, true⟩

/-- Modelled from the spec: entropy -Σ p·log₂ p with 0·log 0 = 0 (§4.2);
Real.logb 2 0 = 0 gives the convention for free. -/
def get_entropy (p : PmfT) : ℝ :=
  -∑ i in Finset.range p.asize, get_probability p i * Real.logb 2 (get_probability p i)

/-- Lists of PMFs (pmf_list_t), stored behind an accessor function. -/
structure PmfListT where
  size : ℕ
  pmfs : ℕ → PmfT

/-- Modelled from the spec: a pmf list of n fresh PMFs over an alphabet of
size asize. -/
def alloc_pmf_list (n asize : ℕ) : PmfListT := ⟨n, fun _ => alloc_pmf asize⟩

/-! ## Quantizers -/

/-- Quantizer (quantizer.h): a map over the input alphabet, its output
alphabet, and the design-target ratio attached at generation time. -/
structure QuantizerT where
  asize : ℕ
  q : ℕ → ℕ
  output_alphabet : List ℕ
  ratio : ℝ

def dummyQ : QuantizerT := ⟨0, fun _ => 0, [], 0⟩

/-- A quantizer designer: from a source PMF and a target state count to a
symbol map and its output alphabet.  quantizer.c is not in src/, so the
design algorithm (§4.4) is kept abstract as a parameter. -/
def Design : Type := PmfT → ℕ → ((ℕ → ℕ) × List ℕ)

/-- Modelled from the spec: generate_quantizer (quantizer.c, not in src/)
builds the quantizer for the given PMF and state count and attaches the
ratio argument to the result (§4.4 step 5, §4.8). -/
def generate_quantizer (design : Design) (pmf : PmfT) (states : ℕ) (r : ℝ) : QuantizerT :=
  ⟨pmf.asize, (design pmf states).1, (design pmf states).2, r⟩

/-! ## Conditional PMF store (codebook.c lines 13-29, 102-109) -/

/-- cond_pmf_list_t: one PMF for column 0 plus one per (column ≥ 1,
previous symbol) pair, stored flat; plus derived marginals. -/
structure CondPmfList where
  columns : ℕ
  asize : ℕ
  pmfs : ℕ → PmfT
  marginal_pmfs : ℕ → PmfT

/-- Flat index used by get_cond_pmf: 0 for column 0, else
1 + (column-1)*asize + prev (codebook.c lines 105-109). -/
def cond_idx (asize column prev : ℕ) : ℕ :=
  if column = 0 then 0 else 1 + (column - 1) * asize + prev

/-- alloc_conditional_pmf_list: every slot is a fresh PMF over the alphabet
(codebook.c lines 13-29; the flat array is modelled as a total function). -/
def alloc_conditional_pmf_list (asize columns : ℕ) : CondPmfList :=
  ⟨columns, asize, fun _ => alloc_pmf asize, fun _ => alloc_pmf asize⟩

/-- get_cond_pmf (codebook.c lines 105-109). -/
def get_cond_pmf (list : CondPmfList) (column prev : ℕ) : PmfT :=
  list.pmfs (cond_idx list.asize column prev)

/-! ## Conditional quantizer store (codebook.c lines 52-149) -/

inductive CodebookError where
  | alphabetLookupMiss

/-- Modelled from the spec: the WELL1024a PRNG (well.c, not in src/) is a
deterministic generator of 32-bit outputs; it is modelled as an abstract
output stream with a position. -/
structure WellState where
  seq : ℕ → ℕ
  n : ℕ

/-- Modelled from the spec: one step of the WELL1024a PRNG produces a
32-bit value and advances the state. -/
def well_1024a (w : WellState) : ℕ × WellState :=
  (w.seq w.n % 2 ^ 32, ⟨w.seq, w.n + 1⟩)

/-- cond_quantizer_list_t (codebook.h lines 38-45): per column an input
alphabet, a flat array of quantizer slots (low at 2·idx, high at 2·idx+1),
a ratio per context, and the PRNG state used by the encoder. -/
structure CondQuantizerList where
  columns : ℕ
  input_alphabets : ℕ → List ℕ
  q : ℕ → ℕ → Option QuantizerT
  ratio : ℕ → ℕ → ℝ
  well : WellState

/-- alloc_conditional_quantizer_list (codebook.c lines 52-59): calloc'd
arrays give empty alphabets, null quantizer pointers and zero ratios. -/
def alloc_conditional_quantizer_list (columns : ℕ) : CondQuantizerList :=
  ⟨columns, fun _ => [], fun _ _ => none, fun _ _ => 0, ⟨fun _ => 0, 0⟩⟩

/-- cond_quantizer_init_column (codebook.c lines 94-100). -/
def cond_quantizer_init_column (list : CondQuantizerList) (column : ℕ)
    (input_union : List ℕ) : CondQuantizerList :=
  { list with
    input_alphabets := Function.update list.input_alphabets column (duplicate_alphabet input_union),
    q := Function.update list.q column (fun _ => none),
    ratio := Function.update list.ratio column (fun _ => 0) }

/-- get_cond_quantizer_indexed (codebook.c lines 114-116). -/
def get_cond_quantizer_indexed (list : CondQuantizerList) (column index : ℕ) :
    Option QuantizerT :=
  list.q column index

/-- get_cond_quantizer (codebook.c lines 121-126): note it returns the raw
slot at the alphabet index of prev, not slot 2·idx. -/
def get_cond_quantizer (list : CondQuantizerList) (column prev : ℕ) : Option QuantizerT :=
  match get_symbol_index (list.input_alphabets column) prev with
  | some idx => get_cond_quantizer_indexed list column idx
  | none => none

/-- store_cond_quantizers (codebook.c lines 132-137): low at slot 2·idx,
high at slot 2·idx+1, and the ratio cell takes lo's ratio field.  The C
code performs an unchecked (undefined) write when the symbol is missing;
that unreachable branch is modelled as a no-op. -/
def store_cond_quantizers (lo hi : QuantizerT) (list : CondQuantizerList)
    (column prev : ℕ) : CondQuantizerList :=
  match get_symbol_index (list.input_alphabets column) prev with
  | some idx =>
      { list with
        q := Function.update list.q column
          (fun i => if i = 2 * idx then some lo
                    else if i = 2 * idx + 1 then some hi
                    else list.q column i),
        ratio := Function.update list.ratio column
          (Function.update (list.ratio column) idx lo.ratio) }
  | none => list

/-- choose_quantizer (codebook.c lines 142-149): the assert on a missing
context symbol is modelled as an AlphabetLookupMiss error; otherwise one
PRNG draw is scaled to [0,1] and the high slot is returned when the draw
is ≥ ratio, the low slot otherwise. -/
def choose_quantizer (list : CondQuantizerList) (column prev : ℕ) :
    Except CodebookError (Option QuantizerT × CondQuantizerList) :=
  match get_symbol_index (list.input_alphabets column) prev with
  | none => .error .alphabetLookupMiss
  | some idx =>
      let draw := well_1024a list.well
      let list2 := { list with well := draw.2 }
      if ((draw.1 : ℝ) / ((2 : ℝ) ^ 32 - 1)) ≥ list.ratio column idx then
        .ok (list.q column (2 * idx + 1), list2)
      else
        .ok (list.q column (2 * idx), list2)

/-! ## Bit allocator (codebook.c lines 281-293) -/

/-- Result triple of find_states, fields in the order of the C output
parameters (high, low, ratio). -/
structure FSResult where
  high : ℕ
  low : ℕ
  ratio : ℝ

/-- find_states (codebook.c lines 281-293): low is the uint32 cast
(truncation) of 2^entropy, high its ceiling, and the ratio solves
H = r·log2(low) + (1-r)·log2(high).  The division is left as written;
when low = high the C double division is degenerate (NaN), modelled by
real division by zero (= 0). -/
def find_states (entropy : ℝ) : FSResult :=
  ⟨⌈(2 : ℝ) ^ entropy⌉₊, ⌊(2 : ℝ) ^ entropy⌋₊,
    (entropy - Real.logb 2 (⌈(2 : ℝ) ^ entropy⌉₊ : ℝ)) /
      (Real.logb 2 (⌊(2 : ℝ) ^ entropy⌋₊ : ℝ) - Real.logb 2 (⌈(2 : ℝ) ^ entropy⌉₊ : ℝ))⟩

/-! ## Empirical statistics (codebook.c lines 163-187) -/

/-- Training data handle: column width and the training lines (the C block
structure is a storage detail; the blocks are iterated in order, modelled
as one flattened list of lines). -/
structure QualityFileT where
  columns : ℕ
  lines : List (List ℕ)

/-- One pmf_increment applied through the conditional store accessor:
pmf_increment(get_cond_pmf(list, column, prev), s). -/
def stat_increment (list : CondPmfList) (column prev s : ℕ) : CondPmfList :=
  { list with
    pmfs := Function.update list.pmfs (cond_idx list.asize column prev)
      (pmf_increment (list.pmfs (cond_idx list.asize column prev)) s) }

/-- Counting pass of calculate_statistics for one line (codebook.c lines
172-175): column 0 unconditional, then each column c ≥ 1 keyed by the
previous symbol. -/
def process_line (cols : ℕ) (list : CondPmfList) (line : List ℕ) : CondPmfList :=
  (List.range' 1 (cols - 1)).foldl
    (fun acc column => stat_increment acc column (line.getD (column - 1) 0) (line.getD column 0))
    (stat_increment list 0 0 (line.getD 0 0))

/-- Marginal PMFs derived after counting (codebook.c lines 180-186):
marg[0] copies the column-0 probabilities, marg[c] accumulates
P(marg[c-1], j) · cond(c, j) over all j. -/
def marg_fn (list : CondPmfList) : ℕ → PmfT
  | 0 => combine_pmfs (get_cond_pmf list 0 0) (alloc_pmf list.asize) 1 0 list.asize
  | c + 1 =>
      (List.range list.asize).foldl
        (fun m j => combine_pmfs m (get_cond_pmf list (c + 1) j) 1
          (get_probability (marg_fn list c) j) list.asize)
        (alloc_pmf list.asize)

/-- calculate_statistics (codebook.c lines 163-187). -/
def calculate_statistics (info : QualityFileT) (pmf_list : CondPmfList) : CondPmfList :=
  let counted := info.lines.foldl (process_line info.columns) pmf_list
  { counted with marginal_pmfs := marg_fn counted }

/-! ## Quantized-PMF propagation (codebook.c lines 296-401) -/

/-- compute_qpmf_quan_list (codebook.c lines 296-318): seeds P(Q_0|X_0=x)
from the column-0 pair by adding ratio at the index of q_lo(x) in the
output union and 1-ratio at the index of q_hi(x).  The loop writes each
(x, idx) cell independently, so it is given directly. -/
def compute_qpmf_quan_list (q_lo q_hi : QuantizerT) (q_x_pmf : PmfListT) (ratio : ℝ)
    (q_output_union : List ℕ) : PmfListT :=
  ⟨q_x_pmf.size, fun x =>
    if x < q_lo.asize then
      { q_x_pmf.pmfs x with
        val := fun idx =>
          (q_x_pmf.pmfs x).val idx +
            (if idx < q_output_union.length then
              (if q_lo.q x = q_output_union.getD idx 0 then ratio else 0) +
                (if q_hi.q x = q_output_union.getD idx 0 then 1 - ratio else 0)
            else 0) }
    else q_x_pmf.pmfs x⟩

/-- Inner j-loop of compute_qpmf_list for one cell (k, idx) (codebook.c
lines 340-365), reproduced exactly as written: the accumulator p_q_xq is
reset only once per cell, keeps accumulating across j, and the cell is
multiplied by it inside the loop.  The fold state is (p_q_xq, cell). -/
def qpmf_cell (in_pmfs : CondPmfList) (column : ℕ) (prev_qpmf_list : PmfListT)
    (q_alphabet_union prev_q_alphabet_union : List ℕ) (q_list : CondQuantizerList)
    (init : ℝ) (k idx : ℕ) : ℝ :=
  ((List.range prev_q_alphabet_union.length).foldl
    (fun acc j =>
      let q_lo := (get_cond_quantizer_indexed q_list (column - 1) (2 * j)).getD dummyQ
      let q_hi := (get_cond_quantizer_indexed q_list (column - 1) (2 * j + 1)).getD dummyQ
      let p := acc.1 +
        (if q_lo.q k = q_alphabet_union.getD idx 0 then q_lo.ratio else 0) +
        (if q_hi.q k = q_alphabet_union.getD idx 0 then q_hi.ratio else 0)
      let v := acc.2 + ∑ x in Finset.range prev_qpmf_list.size,
        get_probability (prev_qpmf_list.pmfs x) j *
          get_probability (get_cond_pmf in_pmfs (column - 1) x) k *
          get_probability (in_pmfs.marginal_pmfs (column - 2)) x
      (p, v * p))
    ((0 : ℝ), init)).2

/-- compute_qpmf_list (codebook.c lines 320-373): fill each cell with the
j-loop above, then mark ready and renormalize each row k. -/
def compute_qpmf_list (qpmf_list : PmfListT) (in_pmfs : CondPmfList) (column : ℕ)
    (prev_qpmf_list : PmfListT) (q_alphabet_union prev_q_alphabet_union : List ℕ)
    (q_list : CondQuantizerList) : PmfListT :=
  ⟨qpmf_list.size, fun k =>
    if k < qpmf_list.size then
      renormalize_pmf
        ⟨(qpmf_list.pmfs k).asize,
          fun idx =>
            if idx < q_alphabet_union.length then
              qpmf_cell in_pmfs column prev_qpmf_list q_alphabet_union
                prev_q_alphabet_union q_list ((qpmf_list.pmfs k).val idx) k idx
            else (qpmf_list.pmfs k).val idx,
          true⟩
    else qpmf_list.pmfs k⟩

/-- compute_xpmf_list (codebook.c lines 375-401): P(X_{i+1}=k | Q_i=q) by
marginalization, then mark ready and renormalize each q-row. -/
def compute_xpmf_list (qpmf_list : PmfListT) (in_pmfs : CondPmfList) (column : ℕ)
    (xpmf_list : PmfListT) (q_alphabet_union : List ℕ) : PmfListT :=
  ⟨xpmf_list.size, fun idx =>
    if idx < q_alphabet_union.length then
      renormalize_pmf
        ⟨(xpmf_list.pmfs idx).asize,
          fun k =>
            if k < qpmf_list.size then
              (xpmf_list.pmfs idx).val k + ∑ x in Finset.range qpmf_list.size,
                get_probability (qpmf_list.pmfs x) idx *
                  get_probability (get_cond_pmf in_pmfs column x) k *
                  get_probability (in_pmfs.marginal_pmfs (column - 1)) x
            else (xpmf_list.pmfs idx).val k,
          true⟩
    else xpmf_list.pmfs idx⟩

/-! ## Codebook generator (codebook.c lines 407-521) -/

/-- Loop state of generate_codebooks between column iterations: the store
under construction, the previous column's output union and qpmf list, and
the last designed pair with its ratio (used by the column-1 seeding). -/
structure GenState where
  q_list : CondQuantizerList
  q_prev_output_union : List ℕ
  prev_qpmf_list : PmfListT
  q_lo : QuantizerT
  q_hi : QuantizerT
  ratio : ℝ

/-- Next-output union computed at the top of the per-column loop
(codebook.c lines 473-476): the union of the output alphabets of the
2·|previous union| quantizers stored at the previous column. -/
def output_union_at (q_list : CondQuantizerList) (col prevlen : ℕ) : List ℕ :=
  (List.range' 1 (2 * prevlen - 1)).foldl
    (fun u j => alphabet_union u
      (((get_cond_quantizer_indexed q_list col j).getD dummyQ).output_alphabet))
    (duplicate_alphabet
      (((get_cond_quantizer_indexed q_list col 0).getD dummyQ).output_alphabet))

/-- Per-context body of the design loop (codebook.c lines 493-502): find
the state allocation for the context's conditional entropy, design the
low/high pair, and store it under the context symbol.  The accumulator
carries (store, q_lo, q_hi, ratio) as the C locals do. -/
def design_col_step (design : Design) (comp : ℝ) (xpmf_list : PmfListT) (u : List ℕ)
    (column : ℕ) (acc : CondQuantizerList × QuantizerT × QuantizerT × ℝ) (j : ℕ) :
    CondQuantizerList × QuantizerT × QuantizerT × ℝ :=
  let q_symbol := u.getD j 0
  let fs := find_states (get_entropy (xpmf_list.pmfs j) * comp)
  let qlo := generate_quantizer design (xpmf_list.pmfs j) fs.low fs.ratio
  let qhi := generate_quantizer design (xpmf_list.pmfs j) fs.high (1 - fs.ratio)
  (store_cond_quantizers qlo qhi acc.1 column q_symbol, qlo, qhi, fs.ratio)

/-- Body of the per-column loop of generate_codebooks (codebook.c lines
470-513). -/
def gen_step (design : Design) (in_pmfs : CondPmfList) (comp : ℝ) (A_size : ℕ)
    (st : GenState) (column : ℕ) : GenState :=
  let q_output_union := output_union_at st.q_list (column - 1) st.q_prev_output_union.length
  let q_list1 := cond_quantizer_init_column st.q_list column q_output_union
  let qpmf_list0 := alloc_pmf_list A_size q_output_union.length
  let xpmf_list0 := alloc_pmf_list q_output_union.length A_size
  let qpmf_list :=
    if column = 1 then
      compute_qpmf_quan_list st.q_lo st.q_hi qpmf_list0 st.ratio q_output_union
    else
      compute_qpmf_list qpmf_list0 in_pmfs column st.prev_qpmf_list q_output_union
        st.q_prev_output_union q_list1
  let xpmf_list := compute_xpmf_list qpmf_list in_pmfs column xpmf_list0 q_output_union
  let res :=
    (List.range q_output_union.length).foldl
      (design_col_step design comp xpmf_list q_output_union column)
      (q_list1, st.q_lo, st.q_hi, st.ratio)
  ⟨res.1, q_output_union, qpmf_list, res.2.1, res.2.2.1, res.2.2.2⟩

/-- State after the special-cased column 0 (codebook.c lines 442-466). -/
def gen_init (design : Design) (in_pmfs : CondPmfList) (comp : ℝ) (A_size : ℕ)
    (columns : ℕ) : GenState :=
  let q_output_union := alloc_alphabet 1
  let q_list1 := cond_quantizer_init_column
    (alloc_conditional_quantizer_list columns) 0 q_output_union
  let qpmf_list := alloc_pmf_list A_size q_output_union.length
  let fs := find_states (get_entropy (get_cond_pmf in_pmfs 0 0) * comp)
  let q_lo := generate_quantizer design (get_cond_pmf in_pmfs 0 0) fs.low fs.ratio
  let q_hi := generate_quantizer design (get_cond_pmf in_pmfs 0 0) fs.high (1 - fs.ratio)
  ⟨store_cond_quantizers q_lo q_hi q_list1 0 0, q_output_union, qpmf_list, q_lo, q_hi, fs.ratio⟩

/-- generate_codebooks (codebook.c lines 407-521), with the quantizer
designer abstracted as a parameter (quantizer.c is not in src/): compute
the statistics, handle column 0 directly, then iterate the per-column
loop over columns 1 .. columns-1. -/
def generate_codebooks (design : Design) (info : QualityFileT) (in_pmfs0 : CondPmfList)
    (comp : ℝ) : CondQuantizerList :=
  let in_pmfs := calculate_statistics info in_pmfs0
  ((List.range' 1 (info.columns - 1)).foldl
    (gen_step design in_pmfs comp in_pmfs.asize)
    (gen_init design in_pmfs comp in_pmfs.asize info.columns)).q_list

/-! ## Codebook persistence (codebook.c lines 725-789) -/

/-- Byte of the ratio line: the uint8 truncation of ratio·100, plus 33
(codebook.c line 754). -/
def ratio_byte (r : ℝ) : ℕ := ⌊r * 100⌋₊ % 256 + 33

/-- One block of a conditional quantizer line (codebook.c lines 772-782):
the quantizer found for context symbol j rendered as q[k]+33 bytes, or
spaces (byte 32) when the context has no quantizer. -/
def codebook_block (quantizers : CondQuantizerList) (size i j : ℕ) : List ℕ :=
  match get_cond_quantizer quantizers i j with
  | some qt => (List.range size).map (fun k => qt.q k + 33)
  | none => List.replicate size 32

/-- Line written for a column i ≥ 1 (codebook.c lines 770-786): the blocks
for every context symbol j < size.  The z-loop emits this same line twice
because its body does not depend on z. -/
def codebook_line (quantizers : CondQuantizerList) (size i : ℕ) : List ℕ :=
  ((List.range size).map (codebook_block quantizers size i)).flatten

/-- write_codebook (codebook.c lines 725-789) as the list of lines written
to the file: two placeholder lines, the ratio line, the column-0 quantizer
at slot (0,0) written twice, then two identical lines per column ≥ 1. -/
def write_codebook (quantizers : CondQuantizerList) : List (List ℕ) :=
  let q_temp := (get_cond_quantizer_indexed quantizers 0 0).getD dummyQ
  let size := q_temp.asize
  let columns := quantizers.columns
  let ratio_line := (List.range columns).map (fun i => ratio_byte (quantizers.ratio i 0))
  let col0_line := (List.range size).map (fun k => q_temp.q k + 33)
  [List.replicate columns 32, List.replicate columns 32, ratio_line, col0_line, col0_line] ++
    ((List.range' 1 (columns - 1)).map
      (fun i => [codebook_line quantizers size i, codebook_line quantizers size i])).flatten

/-! ## Facts about the bit allocator -/

lemma two_rpow_pos (x : ℝ) : 0 < (2 : ℝ) ^ x :=
  Real.rpow_pos_of_pos (by norm_num) x

lemma two_rpow_lt_two_rpow {x y : ℝ} (h : x < y) : (2 : ℝ) ^ x < (2 : ℝ) ^ y :=
  (Real.rpow_lt_rpow_left_iff (by norm_num : (1 : ℝ) < 2)).mpr h

lemma one_le_two_rpow {x : ℝ} (h : 0 ≤ x) : (1 : ℝ) ≤ (2 : ℝ) ^ x := by
  have := (Real.rpow_le_rpow_left_iff (by norm_num : (1 : ℝ) < 2)).mpr h
  simpa using this

lemma floor_two_rpow_half : ⌊(2 : ℝ) ^ ((1 : ℝ) / 2)⌋₊ = 1 := by
  rw [Nat.floor_eq_iff (le_of_lt (two_rpow_pos _))]
  constructor
  · simpa using one_le_two_rpow (by norm_num : (0 : ℝ) ≤ 1 / 2)
  · have h := two_rpow_lt_two_rpow (by norm_num : (1 : ℝ) / 2 < 1)
    rw [Real.rpow_one] at h
    norm_num
    exact h

lemma ceil_two_rpow_half : ⌈(2 : ℝ) ^ ((1 : ℝ) / 2)⌉₊ = 2 := by
  rw [Nat.ceil_eq_iff (by norm_num : (2 : ℕ) ≠ 0)]
  constructor
  · have h := two_rpow_lt_two_rpow (by norm_num : (0 : ℝ) < 1 / 2)
    rw [Real.rpow_zero] at h
    norm_num
    exact h
  · have h := two_rpow_lt_two_rpow (by norm_num : (1 : ℝ) / 2 < 1)
    rw [Real.rpow_one] at h
    norm_num
    exact le_of_lt h

/--
C1: For every target entropy H ≥ 0 whose allocation gives low ≠ high, the
bit allocator find_states returns low = ⌊2^H⌋ and high = ⌈2^H⌉, and the
returned ratio r satisfies r·log₂(low) + (1-r)·log₂(high) = H.
-/
theorem find_states_identity (H : ℝ) (h0 : 0 ≤ H)
    (hne : (find_states H).low ≠ (find_states H).high) :
    (find_states H).low = ⌊(2 : ℝ) ^ H⌋₊ ∧ (find_states H).high = ⌈(2 : ℝ) ^ H⌉₊ ∧
      (find_states H).ratio * Real.logb 2 ((find_states H).low : ℝ) +
        (1 - (find_states H).ratio) * Real.logb 2 ((find_states H).high : ℝ) = H := by
  refine ⟨rfl, rfl, ?_⟩
  have h1 : (1 : ℝ) ≤ (2 : ℝ) ^ H := one_le_two_rpow h0
  have hL1 : 1 ≤ ⌊(2 : ℝ) ^ H⌋₊ := Nat.le_floor (by exact_mod_cast h1)
  have hLU : ⌊(2 : ℝ) ^ H⌋₊ ≤ ⌈(2 : ℝ) ^ H⌉₊ := Nat.floor_le_ceil _
  have hlt : ⌊(2 : ℝ) ^ H⌋₊ < ⌈(2 : ℝ) ^ H⌉₊ := lt_of_le_of_ne hLU hne
  have hlogb : Real.logb 2 ((⌊(2 : ℝ) ^ H⌋₊ : ℝ)) < Real.logb 2 ((⌈(2 : ℝ) ^ H⌉₊ : ℝ)) := by
    apply Real.logb_lt_logb (by norm_num)
    · exact_mod_cast hL1
    · exact_mod_cast hlt
  have hab : Real.logb 2 ((⌊(2 : ℝ) ^ H⌋₊ : ℝ)) - Real.logb 2 ((⌈(2 : ℝ) ^ H⌉₊ : ℝ)) ≠ 0 :=
    sub_ne_zero.mpr (ne_of_lt hlogb)
  show (H - Real.logb 2 ((⌈(2 : ℝ) ^ H⌉₊ : ℝ))) /
        (Real.logb 2 ((⌊(2 : ℝ) ^ H⌋₊ : ℝ)) - Real.logb 2 ((⌈(2 : ℝ) ^ H⌉₊ : ℝ))) *
        Real.logb 2 ((⌊(2 : ℝ) ^ H⌋₊ : ℝ)) +
      (1 - (H - Real.logb 2 ((⌈(2 : ℝ) ^ H⌉₊ : ℝ))) /
        (Real.logb 2 ((⌊(2 : ℝ) ^ H⌋₊ : ℝ)) - Real.logb 2 ((⌈(2 : ℝ) ^ H⌉₊ : ℝ)))) *
        Real.logb 2 ((⌈(2 : ℝ) ^ H⌉₊ : ℝ)) = H
  field_simp
  ring

/--
C1 witness: at the concrete target entropy H = 1/2 the hypotheses of
find_states_identity hold (the allocation is 1 and 2, which differ) and
the mixing identity follows.
-/
theorem find_states_identity_witness :
    (0 : ℝ) ≤ 1 / 2 ∧ (find_states ((1 : ℝ) / 2)).low ≠ (find_states ((1 : ℝ) / 2)).high ∧
      ((find_states ((1 : ℝ) / 2)).low = ⌊(2 : ℝ) ^ ((1 : ℝ) / 2)⌋₊ ∧
        (find_states ((1 : ℝ) / 2)).high = ⌈(2 : ℝ) ^ ((1 : ℝ) / 2)⌉₊ ∧
        (find_states ((1 : ℝ) / 2)).ratio *
            Real.logb 2 ((find_states ((1 : ℝ) / 2)).low : ℝ) +
          (1 - (find_states ((1 : ℝ) / 2)).ratio) *
            Real.logb 2 ((find_states ((1 : ℝ) / 2)).high : ℝ) = 1 / 2) := by
  have hne : (find_states ((1 : ℝ) / 2)).low ≠ (find_states ((1 : ℝ) / 2)).high := by
    show ⌊(2 : ℝ) ^ ((1 : ℝ) / 2)⌋₊ ≠ ⌈(2 : ℝ) ^ ((1 : ℝ) / 2)⌉₊
    rw [floor_two_rpow_half, ceil_two_rpow_half]
    norm_num
  exact ⟨by norm_num, hne, find_states_identity (1 / 2) (by norm_num) hne⟩

lemma find_states_zero : find_states 0 = ⟨1, 1, 0⟩ := by
  unfold find_states
  rw [Real.rpow_zero]
  norm_num [Real.logb_one]

/--
C6 counterexample: at H = 0 the allocator does return low = 1 and
high = 1, but the returned ratio is the degenerate division (0-0)/(0-0)
(NaN in C, 0 under real-division semantics), not the claimed 1.
-/
theorem find_states_zero_counterexample :
    (find_states 0).low = 1 ∧ (find_states 0).high = 1 ∧ (find_states 0).ratio ≠ 1 := by
  rw [find_states_zero]
  norm_num

lemma floor_two_rpow_three_quarters : ⌊(2 : ℝ) ^ ((3 : ℝ) / 4)⌋₊ = 1 := by
  rw [Nat.floor_eq_iff (le_of_lt (two_rpow_pos _))]
  constructor
  · simpa using one_le_two_rpow (by norm_num : (0 : ℝ) ≤ 3 / 4)
  · have h := two_rpow_lt_two_rpow (by norm_num : (3 : ℝ) / 4 < 1)
    rw [Real.rpow_one] at h
    norm_num
    exact h

lemma ceil_two_rpow_three_quarters : ⌈(2 : ℝ) ^ ((3 : ℝ) / 4)⌉₊ = 2 := by
  rw [Nat.ceil_eq_iff (by norm_num : (2 : ℕ) ≠ 0)]
  constructor
  · have h := two_rpow_lt_two_rpow (by norm_num : (0 : ℝ) < 3 / 4)
    rw [Real.rpow_zero] at h
    norm_num
    exact h
  · have h := two_rpow_lt_two_rpow (by norm_num : (3 : ℝ) / 4 < 1)
    rw [Real.rpow_one] at h
    norm_num
    exact le_of_lt h

lemma find_states_three_quarters : find_states ((3 : ℝ) / 4) = ⟨2, 1, 1 / 4⟩ := by
  unfold find_states
  rw [floor_two_rpow_three_quarters, ceil_two_rpow_three_quarters]
  have h2 : Real.logb 2 ((2 : ℕ) : ℝ) = 1 := by
    have hc : ((2 : ℕ) : ℝ) = 2 := by norm_num
    rw [hc]
    exact Real.logb_self_eq_one (by norm_num)
  have h1 : Real.logb 2 ((1 : ℕ) : ℝ) = 0 := by
    norm_num
  rw [h1, h2]
  norm_num

/--
C7 counterexample: with comp = 0.5 and column-0 source entropy 1.5 bits,
the target entropy is 0.75 and the allocator returns low = ⌊2^0.75⌋ = 1
and high = 2 — not the claimed low = 2, high = 3.
-/
theorem find_states_s3_counterexample :
    (find_states ((3 : ℝ) / 2 * (1 / 2))).low = 1 ∧
      (find_states ((3 : ℝ) / 2 * (1 / 2))).high = 2 ∧
      ¬((find_states ((3 : ℝ) / 2 * (1 / 2))).low = 2 ∧
        (find_states ((3 : ℝ) / 2 * (1 / 2))).high = 3) := by
  have h : (3 : ℝ) / 2 * (1 / 2) = 3 / 4 := by norm_num
  rw [h, find_states_three_quarters]
  norm_num

/-! ## Store and selector claims -/

/--
C10: after store_cond_quantizers on a column whose input alphabet contains
prev at index idx, the low quantizer sits at slot 2·idx, the high
quantizer at slot 2·idx+1, and the recorded mixing ratio for the context
is the ratio field carried by the low quantizer — which is exactly the
ratio the generator passed to generate_quantizer when designing it.
-/
theorem store_cond_quantizers_spec (lo hi : QuantizerT) (list : CondQuantizerList)
    (column prev idx : ℕ)
    (h : get_symbol_index (list.input_alphabets column) prev = some idx) :
    (store_cond_quantizers lo hi list column prev).q column (2 * idx) = some lo ∧
      (store_cond_quantizers lo hi list column prev).q column (2 * idx + 1) = some hi ∧
      (store_cond_quantizers lo hi list column prev).ratio column idx = lo.ratio ∧
      ∀ (design : Design) (pmf : PmfT) (states : ℕ) (r : ℝ),
        (generate_quantizer design pmf states r).ratio = r := by
  unfold store_cond_quantizers
  rw [h]
  refine ⟨?_, ?_, ?_, fun _ _ _ _ => rfl⟩
  · show (Function.update list.q column _) column (2 * idx) = some lo
    rw [Function.update_same]
    simp
  · show (Function.update list.q column _) column (2 * idx + 1) = some hi
    rw [Function.update_same]
    simp
  · show (Function.update list.ratio column _) column idx = lo.ratio
    rw [Function.update_same, Function.update_same]

def wit_store_list : CondQuantizerList :=
  ⟨1, fun _ => [4, 7], fun _ _ => none, fun _ _ => 0, ⟨fun _ => 0, 0⟩⟩

def wit_lo : QuantizerT := ⟨2, fun _ => 0, [0], 3 / 4⟩

def wit_hi : QuantizerT := ⟨2, fun _ => 1, [1], 1 / 4⟩

/--
C10 witness: storing a concrete pair under context symbol 7 (at index 1 of
the input alphabet [4,7]) puts the low quantizer at slot 2, the high one
at slot 3, and records the low quantizer's ratio.
-/
theorem store_cond_quantizers_spec_witness :
    get_symbol_index (wit_store_list.input_alphabets 0) 7 = some 1 ∧
      ((store_cond_quantizers wit_lo wit_hi wit_store_list 0 7).q 0 (2 * 1) = some wit_lo ∧
        (store_cond_quantizers wit_lo wit_hi wit_store_list 0 7).q 0 (2 * 1 + 1) = some wit_hi ∧
        (store_cond_quantizers wit_lo wit_hi wit_store_list 0 7).ratio 0 1 = wit_lo.ratio ∧
        ∀ (design : Design) (pmf : PmfT) (states : ℕ) (r : ℝ),
          (generate_quantizer design pmf states r).ratio = r) :=
  ⟨rfl, store_cond_quantizers_spec wit_lo wit_hi wit_store_list 0 7 1 rfl⟩

/--
C5: for a context symbol present in the column's input alphabet at index
idx, choose_quantizer draws exactly one value from the WELL1024a state
held in the store, scales it to u ∈ [0,1], and returns the stored low
slot exactly when u < ratio[column][idx] and the stored high slot
otherwise, advancing the PRNG state.
-/
theorem choose_quantizer_spec (list : CondQuantizerList) (column prev idx : ℕ)
    (h : get_symbol_index (list.input_alphabets column) prev = some idx) :
    0 ≤ ((well_1024a list.well).1 : ℝ) / ((2 : ℝ) ^ 32 - 1) ∧
      ((well_1024a list.well).1 : ℝ) / ((2 : ℝ) ^ 32 - 1) ≤ 1 ∧
      choose_quantizer list column prev =
        .ok (if ((well_1024a list.well).1 : ℝ) / ((2 : ℝ) ^ 32 - 1) < list.ratio column idx
             then list.q column (2 * idx) else list.q column (2 * idx + 1),
             { list with well := (well_1024a list.well).2 }) := by
  have hden : (0 : ℝ) < (2 : ℝ) ^ 32 - 1 := by norm_num
  have hw : (well_1024a list.well).1 < 2 ^ 32 := by
    show list.well.seq list.well.n % 2 ^ 32 < 2 ^ 32
    exact Nat.mod_lt _ (by norm_num)
  refine ⟨div_nonneg (Nat.cast_nonneg _) (le_of_lt hden), ?_, ?_⟩
  · rw [div_le_one hden]
    have hle : (well_1024a list.well).1 ≤ 2 ^ 32 - 1 := Nat.le_sub_one_of_lt hw
    have : ((well_1024a list.well).1 : ℝ) ≤ ((2 ^ 32 - 1 : ℕ) : ℝ) := Nat.cast_le.mpr hle
    calc ((well_1024a list.well).1 : ℝ) ≤ ((2 ^ 32 - 1 : ℕ) : ℝ) := this
      _ = (2 : ℝ) ^ 32 - 1 := by norm_num
  · simp only [choose_quantizer, h]
    rcases le_or_lt (list.ratio column idx) (((well_1024a list.well).1 : ℝ) / ((2 : ℝ) ^ 32 - 1))
      with hc | hc
    · rw [if_pos hc, if_neg (not_lt.mpr hc)]
    · rw [if_neg (not_le.mpr hc), if_pos hc]

def wit_choose_list : CondQuantizerList :=
  ⟨3, fun _ => [0, 1], fun _ _ => none, fun _ _ => 1 / 2, ⟨fun _ => 0, 0⟩⟩

/--
C5 witness: on a concrete store with input alphabet [0,1], ratio 1/2 and a
zero-seeded PRNG stream, the selector's draw lies in [0,1] and the
selector returns the slot picked by the u < ratio test.
-/
theorem choose_quantizer_spec_witness :
    get_symbol_index (wit_choose_list.input_alphabets 2) 1 = some 1 ∧
      (0 ≤ ((well_1024a wit_choose_list.well).1 : ℝ) / ((2 : ℝ) ^ 32 - 1) ∧
        ((well_1024a wit_choose_list.well).1 : ℝ) / ((2 : ℝ) ^ 32 - 1) ≤ 1 ∧
        choose_quantizer wit_choose_list 2 1 =
          .ok (if ((well_1024a wit_choose_list.well).1 : ℝ) / ((2 : ℝ) ^ 32 - 1) <
                  wit_choose_list.ratio 2 1
               then wit_choose_list.q 2 (2 * 1) else wit_choose_list.q 2 (2 * 1 + 1),
               { wit_choose_list with well := (well_1024a wit_choose_list.well).2 })) :=
  ⟨rfl, choose_quantizer_spec wit_choose_list 2 1 1 rfl⟩

/--
C8: calling the choose selector with a previous-context symbol that is not
in the column's input alphabet surfaces the AlphabetLookupMiss error (the
C assert) instead of returning a quantizer.
-/
theorem choose_quantizer_missing_context (list : CondQuantizerList) (column s : ℕ)
    (h : get_symbol_index (list.input_alphabets column) s = none) :
    choose_quantizer list column s = .error .alphabetLookupMiss := by
  unfold choose_quantizer
  rw [h]

/--
C8 witness: on the concrete store with input alphabet [0,1], asking column
2 for the absent context symbol 7 yields the AlphabetLookupMiss error.
-/
theorem choose_quantizer_missing_context_witness :
    get_symbol_index (wit_choose_list.input_alphabets 2) 7 = none ∧
      choose_quantizer wit_choose_list 2 7 = .error .alphabetLookupMiss :=
  ⟨rfl, choose_quantizer_missing_context wit_choose_list 2 7 rfl⟩

/-! ## Persisted codebook layout -/

lemma range'_append_one (s n : ℕ) : List.range' s (n + 1) = List.range' s n ++ [s + n] := by
  have h : List.range' s (n + 1) 1 = List.range' s n 1 ++ [s + 1 * n] := List.range'_concat s n
  simpa using h

lemma pair_flatten_getD (g : ℕ → List ℕ) (d : List ℕ) :
    ∀ (n a k : ℕ), k < n →
      (((List.range' a n).map (fun i => [g i, g i])).flatten.getD (2 * k) d = g (a + k) ∧
        ((List.range' a n).map (fun i => [g i, g i])).flatten.getD (2 * k + 1) d = g (a + k)) := by
  intro n
  induction n with
  | zero => intro a k hk; omega
  | succ n ih =>
      intro a k hk
      rw [List.range'_succ a n 1]
      simp only [List.map_cons, List.flatten_cons, List.cons_append, List.nil_append]
      cases k with
      | zero => simp
      | succ k' =>
          have h2 : 2 * (k' + 1) = 2 * k' + 1 + 1 := by ring
          rw [h2]
          rw [List.getD_cons_succ, List.getD_cons_succ, List.getD_cons_succ, List.getD_cons_succ]
          have h3 : a + (k' + 1) = a + 1 + k' := by omega
          rw [h3]
          exact ih (a + 1) k' (by omega)

def wit9_lo : QuantizerT := ⟨1, fun _ => 0, [0], 0⟩

def wit9_hi : QuantizerT := ⟨1, fun _ => 1, [1], 0⟩

def wit9_list : CondQuantizerList :=
  ⟨1, fun _ => [0],
    fun c i => if c = 0 ∧ i = 0 then some wit9_lo
               else if c = 0 ∧ i = 1 then some wit9_hi else none,
    fun _ _ => 0, ⟨fun _ => 0, 0⟩⟩

/--
C9 counterexample: on a store whose column-0 low quantizer maps everything
to 0 and whose high quantizer maps everything to 1, the file's fifth line
is the low quantizer's encoding again ([33]), not the high quantizer's
encoding ([34]).
-/
theorem write_codebook_counterexample :
    (write_codebook wit9_list).getD 4 [] = [0 + 33] ∧
      (List.range wit9_hi.asize).map (fun k => wit9_hi.q k + 33) = [1 + 33] ∧
      (write_codebook wit9_list).getD 4 [] ≠
        (List.range wit9_hi.asize).map (fun k => wit9_hi.q k + 33) := by
  refine ⟨?_, by simp [wit9_hi, List.range_succ], ?_⟩ <;>
    simp [write_codebook, wit9_list, wit9_lo, wit9_hi, get_cond_quantizer_indexed,
      List.range_succ, List.range']

/--
C9 amended: line 4 encodes the column-0 quantizer stored at raw slot 0
(the low quantizer) and line 5 is the very same line again (the C comment
says each quantizer is written twice); for every column c ≥ 1 the two
emitted lines are identical, each being the per-context concatenation of
blocks looked up through get_cond_quantizer (low/high interleaved raw
indexing), with spaces for absent contexts.
-/
theorem write_codebook_amended (s : CondQuantizerList) (c : ℕ)
    (h1 : 1 ≤ c) (h2 : c < s.columns) :
    (write_codebook s).getD 3 [] =
      (List.range ((get_cond_quantizer_indexed s 0 0).getD dummyQ).asize).map
        (fun k => ((get_cond_quantizer_indexed s 0 0).getD dummyQ).q k + 33) ∧
      (write_codebook s).getD 4 [] = (write_codebook s).getD 3 [] ∧
      (write_codebook s).getD (3 + 2 * c) [] =
        codebook_line s ((get_cond_quantizer_indexed s 0 0).getD dummyQ).asize c ∧
      (write_codebook s).getD (4 + 2 * c) [] = (write_codebook s).getD (3 + 2 * c) [] := by
  have hpair := pair_flatten_getD
    (fun i => codebook_line s ((get_cond_quantizer_indexed s 0 0).getD dummyQ).asize i) []
    (s.columns - 1) 1 (c - 1) (by omega)
  have hc1 : 1 + (c - 1) = c := by omega
  rw [hc1] at hpair
  unfold write_codebook
  constructor
  · rw [List.getD_append _ _ _ _ (by simp)]
    simp
  constructor
  · rw [List.getD_append _ _ _ _ (by simp), List.getD_append _ _ _ _ (by simp)]
    simp
  constructor
  · rw [List.getD_append_right _ _ _ _ (by simp; omega)]
    have h5 : 3 + 2 * c - 5 = 2 * (c - 1) := by omega
    simp only [List.length_cons, List.length_nil]
    rw [h5]
    exact hpair.1
  · rw [List.getD_append_right _ _ _ _ (by simp; omega),
      List.getD_append_right _ _ _ _ (by simp; omega)]
    have h5 : 3 + 2 * c - 5 = 2 * (c - 1) := by omega
    have h6 : 4 + 2 * c - 5 = 2 * (c - 1) + 1 := by omega
    simp only [List.length_cons, List.length_nil]
    rw [h5, h6, hpair.1, hpair.2]

def wit9b_list : CondQuantizerList :=
  ⟨2, fun _ => [0],
    fun c i => if c = 0 ∧ i = 0 then some wit9_lo
               else if c = 0 ∧ i = 1 then some wit9_hi else none,
    fun _ _ => 0, ⟨fun _ => 0, 0⟩⟩

/--
C9 witness: on a concrete two-column store the amended layout statement
holds at column 1 — lines 4 and 5 agree and the two lines of column 1
agree.
-/
theorem write_codebook_amended_witness :
    (1 : ℕ) ≤ 1 ∧ 1 < wit9b_list.columns ∧
      ((write_codebook wit9b_list).getD 3 [] =
        (List.range ((get_cond_quantizer_indexed wit9b_list 0 0).getD dummyQ).asize).map
          (fun k => ((get_cond_quantizer_indexed wit9b_list 0 0).getD dummyQ).q k + 33) ∧
        (write_codebook wit9b_list).getD 4 [] = (write_codebook wit9b_list).getD 3 [] ∧
        (write_codebook wit9b_list).getD (3 + 2 * 1) [] =
          codebook_line wit9b_list ((get_cond_quantizer_indexed wit9b_list 0 0).getD dummyQ).asize 1 ∧
        (write_codebook wit9b_list).getD (4 + 2 * 1) [] =
          (write_codebook wit9b_list).getD (3 + 2 * 1) []) :=
  ⟨le_refl 1, by norm_num [wit9b_list],
    write_codebook_amended wit9b_list 1 (le_refl 1) (by norm_num [wit9b_list])⟩

/-! ## Facts about calculate_statistics -/

lemma cond_idx_pos_ne_zero (A c p : ℕ) (hc : 1 ≤ c) : cond_idx A c p ≠ 0 := by
  unfold cond_idx
  rw [if_neg (by omega)]
  omega

lemma cond_idx_inj (A c c' p p' : ℕ) (hc : 1 ≤ c) (hc' : 1 ≤ c')
    (hp : p < A) (hp' : p' < A) :
    cond_idx A c p = cond_idx A c' p' ↔ c = c' ∧ p = p' := by
  unfold cond_idx
  rw [if_neg (by omega), if_neg (by omega)]
  constructor
  · intro h
    have h1 : (c - 1) * A + p = (c' - 1) * A + p' := by omega
    have hp2 : (p + (c - 1) * A) % A = (p' + (c' - 1) * A) % A := by
      rw [Nat.add_comm p _, Nat.add_comm p' _, h1]
    rw [Nat.add_mul_mod_self_right, Nat.add_mul_mod_self_right,
      Nat.mod_eq_of_lt hp, Nat.mod_eq_of_lt hp'] at hp2
    subst hp2
    have h2 : (c - 1) * A = (c' - 1) * A := by omega
    have h3 : c - 1 = c' - 1 := Nat.eq_of_mul_eq_mul_right (by omega) h2
    exact ⟨by omega, rfl⟩
  · rintro ⟨rfl, rfl⟩
    rfl

lemma stat_increment_asize (pl : CondPmfList) (c p s : ℕ) :
    (stat_increment pl c p s).asize = pl.asize := rfl

lemma stat_increment_same (pl : CondPmfList) (c p s : ℕ) :
    get_cond_pmf (stat_increment pl c p s) c p = pmf_increment (get_cond_pmf pl c p) s := by
  unfold get_cond_pmf stat_increment
  exact Function.update_same _ _ _

lemma stat_increment_other (pl : CondPmfList) (c p s c' p' : ℕ)
    (hne : cond_idx pl.asize c' p' ≠ cond_idx pl.asize c p) :
    get_cond_pmf (stat_increment pl c p s) c' p' = get_cond_pmf pl c' p' := by
  unfold get_cond_pmf stat_increment
  exact Function.update_noteq hne _ _

lemma pmf_increment_val (p : PmfT) (s k : ℕ) :
    (pmf_increment p s).val k = p.val k + (if s = k then 1 else 0) := by
  by_cases h : k = s
  · subst h
    show Function.update p.val k (p.val k + 1) k = p.val k + (if k = k then 1 else 0)
    rw [Function.update_same, if_pos rfl]
  · show Function.update p.val s (p.val s + 1) k = p.val k + (if s = k then 1 else 0)
    rw [Function.update_noteq h, if_neg (fun hh => h hh.symm), add_zero]

/-- Effect of the per-line counting fold on a conditional slot (c, p) with
c ≥ 1: exactly one increment when the line's key matches. -/
lemma fold_stat_val (line : List ℕ) (cols : ℕ) :
    ∀ (n a : ℕ) (acc : CondPmfList) (c p k : ℕ), 1 ≤ a → a + n ≤ cols → 1 ≤ c →
      p < acc.asize → (∀ j, j < cols → line.getD j 0 < acc.asize) →
      (get_cond_pmf
        ((List.range' a n).foldl
          (fun x column => stat_increment x column (line.getD (column - 1) 0) (line.getD column 0))
          acc) c p).val k =
      (get_cond_pmf acc c p).val k +
        (if c ∈ List.range' a n ∧ line.getD (c - 1) 0 = p ∧ line.getD c 0 = k then 1 else 0) := by
  intro n
  induction n with
  | zero =>
      intro a acc c p k ha han hc hp hb
      simp
  | succ n ih =>
      intro a acc c p k ha han hc hp hb
      rw [List.range'_succ a n 1, List.foldl_cons]
      have hacc' : (stat_increment acc a (line.getD (a - 1) 0) (line.getD a 0)).asize
          = acc.asize := rfl
      rw [ih (a + 1) _ c p k (by omega) (by omega) hc (by rw [hacc']; exact hp)
        (by rw [hacc']; exact hb)]
      have hnotmem : a ∉ List.range' (a + 1) n := by
        intro hmem
        rw [List.mem_range'_1] at hmem
        omega
      have hsplit : c ∈ List.range' a (n + 1) ↔ c = a ∨ c ∈ List.range' (a + 1) n := by
        rw [List.range'_succ a n 1, List.mem_cons]
      by_cases hca : c = a
      · subst hca
        have hindrest : (if c ∈ List.range' (c + 1) n ∧ line.getD (c - 1) 0 = p ∧
            line.getD c 0 = k then (1 : ℝ) else 0) = 0 := by
          rw [if_neg]
          rintro ⟨hmem2, -, -⟩
          exact hnotmem hmem2
        rw [hindrest, add_zero]
        by_cases hps : line.getD (c - 1) 0 = p
        · subst hps
          rw [stat_increment_same, pmf_increment_val]
          congr 1
          have hmemc : c ∈ List.range' c (n + 1) := by
            rw [List.mem_range'_1]
            omega
          by_cases hk : line.getD c 0 = k
          · rw [if_pos hk, if_pos ⟨hmemc, rfl, hk⟩]
          · rw [if_neg hk, if_neg (fun hh => hk hh.2.2)]
        · rw [stat_increment_other, if_neg (fun hh => hps hh.2.1), add_zero]
          intro hh
          rw [cond_idx_inj _ _ _ _ _ hc hc hp (hb (c - 1) (by omega))] at hh
          exact hps hh.2.symm
      · rw [stat_increment_other]
        · congr 1
          have hiff : (c ∈ List.range' (a + 1) n ∧ line.getD (c - 1) 0 = p ∧
              line.getD c 0 = k) ↔ (c ∈ List.range' a (n + 1) ∧ line.getD (c - 1) 0 = p ∧
              line.getD c 0 = k) := by
            apply and_congr_left'
            rw [hsplit]
            constructor
            · exact Or.inr
            · rintro (h | h)
              · exact absurd h hca
              · exact h
          exact if_congr hiff rfl rfl
        · intro hh
          rw [cond_idx_inj _ _ _ _ _ hc (by omega) hp (hb (a - 1) (by omega))] at hh
          exact hca hh.1

lemma fold_stat_asize (line : List ℕ) : ∀ (js : List ℕ) (acc : CondPmfList),
    ((js.foldl
      (fun x column => stat_increment x column (line.getD (column - 1) 0) (line.getD column 0))
      acc).asize = acc.asize) := by
  intro js
  induction js with
  | nil => intro acc; rfl
  | cons j js ih => intro acc; rw [List.foldl_cons, ih]; rfl

lemma process_line_asize (cols : ℕ) (pl : CondPmfList) (line : List ℕ) :
    (process_line cols pl line).asize = pl.asize := by
  unfold process_line
  rw [fold_stat_asize]
  rfl

lemma process_line_col0 (cols : ℕ) (pl : CondPmfList) (line : List ℕ) (k : ℕ) :
    (get_cond_pmf (process_line cols pl line) 0 0).val k =
      (get_cond_pmf pl 0 0).val k + (if line.getD 0 0 = k then 1 else 0) := by
  unfold process_line
  have hfold : ∀ (js : List ℕ) (acc : CondPmfList), (∀ j ∈ js, 1 ≤ j) →
      get_cond_pmf (js.foldl
        (fun x column => stat_increment x column (line.getD (column - 1) 0) (line.getD column 0))
        acc) 0 0 = get_cond_pmf acc 0 0 := by
    intro js
    induction js with
    | nil => intro acc _; rfl
    | cons j js ih =>
        intro acc hj
        rw [List.foldl_cons, ih _ (fun x hx => hj x (List.mem_cons_of_mem _ hx))]
        apply stat_increment_other
        have hne := cond_idx_pos_ne_zero acc.asize j (line.getD (j - 1) 0)
          (hj j (List.mem_cons_self _ _))
        intro hh
        apply hne
        rw [← hh]
        rfl
  rw [hfold _ _ (fun j hj => by rw [List.mem_range'_1] at hj; omega)]
  rw [stat_increment_same, pmf_increment_val]

lemma process_line_cond (cols : ℕ) (pl : CondPmfList) (line : List ℕ) (c p k : ℕ)
    (hc : 1 ≤ c) (hcc : c < cols) (hp : p < pl.asize)
    (hb : ∀ j, j < cols → line.getD j 0 < pl.asize) :
    (get_cond_pmf (process_line cols pl line) c p).val k =
      (get_cond_pmf pl c p).val k +
        (if line.getD (c - 1) 0 = p ∧ line.getD c 0 = k then 1 else 0) := by
  unfold process_line
  have hacc : (stat_increment pl 0 0 (line.getD 0 0)).asize = pl.asize := rfl
  rw [fold_stat_val line cols (cols - 1) 1 _ c p k (le_refl 1) (by omega) hc
    (by rw [hacc]; exact hp) (by rw [hacc]; exact hb)]
  have hmem : c ∈ List.range' 1 (cols - 1) := by
    rw [List.mem_range'_1]
    omega
  rw [stat_increment_other pl 0 0 _ c p
    (fun hh => cond_idx_pos_ne_zero pl.asize c p hc (by rw [hh]; rfl))]
  congr 1
  by_cases key : line.getD (c - 1) 0 = p ∧ line.getD c 0 = k
  · rw [if_pos ⟨hmem, key.1, key.2⟩, if_pos key]
  · rw [if_neg (fun hh => key ⟨hh.2.1, hh.2.2⟩), if_neg key]

lemma foldl_process_asize (cols : ℕ) : ∀ (ls : List (List ℕ)) (acc : CondPmfList),
    ((ls.foldl (process_line cols) acc).asize = acc.asize) := by
  intro ls
  induction ls with
  | nil => intro acc; rfl
  | cons L ls ih => intro acc; rw [List.foldl_cons, ih, process_line_asize]

lemma foldl_process_col0 (cols : ℕ) (k : ℕ) :
    ∀ (ls : List (List ℕ)) (acc : CondPmfList),
      (get_cond_pmf (ls.foldl (process_line cols) acc) 0 0).val k =
        (get_cond_pmf acc 0 0).val k +
          ((ls.countP (fun L => decide (L.getD 0 0 = k)) : ℕ) : ℝ) := by
  intro ls
  induction ls with
  | nil => intro acc; simp
  | cons L ls ih =>
      intro acc
      rw [List.foldl_cons, ih, process_line_col0, List.countP_cons]
      by_cases h : L.getD 0 0 = k
      · rw [if_pos h, decide_eq_true h, if_pos rfl]
        push_cast
        ring
      · rw [if_neg h, decide_eq_false h, if_neg Bool.false_ne_true]
        push_cast
        ring

lemma foldl_process_cond (cols A c p k : ℕ) (hc : 1 ≤ c) (hcc : c < cols) (hp : p < A) :
    ∀ (ls : List (List ℕ)) (acc : CondPmfList), acc.asize = A →
      (∀ L ∈ ls, ∀ j, j < cols → L.getD j 0 < A) →
      (get_cond_pmf (ls.foldl (process_line cols) acc) c p).val k =
        (get_cond_pmf acc c p).val k +
          ((ls.countP (fun L => decide (L.getD (c - 1) 0 = p ∧ L.getD c 0 = k)) : ℕ) : ℝ) := by
  intro ls
  induction ls with
  | nil => intro acc _ _; simp
  | cons L ls ih =>
      intro acc hA hb
      rw [List.foldl_cons,
        ih _ (by rw [process_line_asize, hA]) (fun x hx => hb x (List.mem_cons_of_mem _ hx)),
        process_line_cond cols acc L c p k hc hcc (by rw [hA]; exact hp)
          (by rw [hA]; exact hb L (List.mem_cons_self _ _)),
        List.countP_cons]
      by_cases h : L.getD (c - 1) 0 = p ∧ L.getD c 0 = k
      · rw [if_pos h, decide_eq_true h, if_pos rfl]
        push_cast
        ring
      · rw [if_neg h, decide_eq_false h, if_neg Bool.false_ne_true]
        push_cast
        ring

lemma prob_combine (a b : PmfT) (wa wb : ℝ) (n k : ℕ) :
    get_probability (combine_pmfs a b wa wb n) k =
      wa * get_probability a k + wb * get_probability b k := rfl

lemma prob_alloc (n k : ℕ) : get_probability (alloc_pmf n) k = 0 := by
  unfold get_probability alloc_pmf
  simp

lemma prob_foldl_combine (f : ℕ → PmfT) (w : ℕ → ℝ) (n k : ℕ) :
    ∀ (js : List ℕ) (m : PmfT),
      get_probability (js.foldl (fun acc j => combine_pmfs acc (f j) 1 (w j) n) m) k =
        get_probability m k + (js.map (fun j => w j * get_probability (f j) k)).sum := by
  intro js
  induction js with
  | nil => intro m; simp
  | cons j js ih =>
      intro m
      rw [List.foldl_cons, ih, prob_combine, List.map_cons, List.sum_cons]
      ring

lemma list_range_map_sum (f : ℕ → ℝ) : ∀ n : ℕ,
    ((List.range n).map f).sum = ∑ i in Finset.range n, f i := by
  intro n
  induction n with
  | zero => simp
  | succ n ih =>
      rw [List.range_succ, List.map_append, List.sum_append, Finset.sum_range_succ, ih]
      simp

lemma marg_fn_succ_prob (pl : CondPmfList) (c k : ℕ) :
    get_probability (marg_fn pl (c + 1)) k =
      ∑ j in Finset.range pl.asize,
        get_probability (marg_fn pl c) j * get_probability (get_cond_pmf pl (c + 1) j) k := by
  show get_probability ((List.range pl.asize).foldl _ (alloc_pmf pl.asize)) k = _
  rw [prob_foldl_combine (fun j => get_cond_pmf pl (c + 1) j)
    (fun j => get_probability (marg_fn pl c) j) pl.asize k (List.range pl.asize)
    (alloc_pmf pl.asize), prob_alloc, zero_add, list_range_map_sum]

/--
C4: calculate_statistics accumulates the column-0 unconditional PMF from
each line's first symbol, and for every column c ≥ 1 increments the
conditional PMF keyed by (c, previous symbol) at the line's symbol in
column c; afterwards the derived marginal of each column c ≥ 1 satisfies
marg[c](k) = Σ_p marg[c-1](p) · cond(c|p)(k).
-/
theorem calculate_statistics_spec (info : QualityFileT) (A : ℕ)
    (hline : ∀ L ∈ info.lines, ∀ j, j < info.columns → L.getD j 0 < A) :
    (∀ k,
      (get_cond_pmf (calculate_statistics info (alloc_conditional_pmf_list A info.columns)) 0 0).val k
        = ((info.lines.countP (fun L => decide (L.getD 0 0 = k)) : ℕ) : ℝ)) ∧
    (∀ c p k, 1 ≤ c → c < info.columns → p < A →
      (get_cond_pmf (calculate_statistics info (alloc_conditional_pmf_list A info.columns)) c p).val k
        = ((info.lines.countP
            (fun L => decide (L.getD (c - 1) 0 = p ∧ L.getD c 0 = k)) : ℕ) : ℝ)) ∧
    (∀ c k, 1 ≤ c → c < info.columns →
      get_probability
          ((calculate_statistics info (alloc_conditional_pmf_list A info.columns)).marginal_pmfs c) k
        = ∑ p in Finset.range A,
            get_probability
              ((calculate_statistics info (alloc_conditional_pmf_list A info.columns)).marginal_pmfs
                (c - 1)) p *
            get_probability
              (get_cond_pmf (calculate_statistics info (alloc_conditional_pmf_list A info.columns))
                c p) k) := by
  have hA : ((info.lines.foldl (process_line info.columns)
      (alloc_conditional_pmf_list A info.columns)).asize) = A :=
    foldl_process_asize info.columns info.lines _
  refine ⟨?_, ?_, ?_⟩
  · intro k
    show (get_cond_pmf (info.lines.foldl (process_line info.columns)
      (alloc_conditional_pmf_list A info.columns)) 0 0).val k = _
    rw [foldl_process_col0]
    show (0 : ℝ) + _ = _
    rw [zero_add]
  · intro c p k hc hcc hp
    show (get_cond_pmf (info.lines.foldl (process_line info.columns)
      (alloc_conditional_pmf_list A info.columns)) c p).val k = _
    rw [foldl_process_cond info.columns A c p k hc hcc hp info.lines _ rfl hline]
    show (0 : ℝ) + _ = _
    rw [zero_add]
  · intro c k hc hcc
    obtain ⟨c', rfl⟩ : ∃ c', c = c' + 1 := ⟨c - 1, by omega⟩
    show get_probability (marg_fn _ (c' + 1)) k = _
    rw [marg_fn_succ_prob, hA]
    rfl

def wit4_info : QualityFileT := ⟨2, [[0, 1], [1, 1]]⟩

/--
C4 witness: on the concrete two-column training set [[0,1],[1,1]] over the
alphabet of size 2 the statistics statement holds, instantiated at
concrete cells: the column-0 count at symbol 0, the (column 1, prev 1)
count at symbol 1, and the column-1 marginal identity at symbol 1.
-/
theorem calculate_statistics_spec_witness :
    (∀ L ∈ wit4_info.lines, ∀ j, j < wit4_info.columns → L.getD j 0 < 2) ∧
      (get_cond_pmf (calculate_statistics wit4_info (alloc_conditional_pmf_list 2 wit4_info.columns))
          0 0).val 0
        = ((wit4_info.lines.countP (fun L => decide (L.getD 0 0 = 0)) : ℕ) : ℝ) ∧
      (get_cond_pmf (calculate_statistics wit4_info (alloc_conditional_pmf_list 2 wit4_info.columns))
          1 1).val 1
        = ((wit4_info.lines.countP
            (fun L => decide (L.getD (1 - 1) 0 = 1 ∧ L.getD 1 0 = 1)) : ℕ) : ℝ) ∧
      get_probability
          ((calculate_statistics wit4_info (alloc_conditional_pmf_list 2 wit4_info.columns)).marginal_pmfs
            1) 1
        = ∑ p in Finset.range 2,
            get_probability
              ((calculate_statistics wit4_info
                (alloc_conditional_pmf_list 2 wit4_info.columns)).marginal_pmfs (1 - 1)) p *
            get_probability
              (get_cond_pmf (calculate_statistics wit4_info
                (alloc_conditional_pmf_list 2 wit4_info.columns)) 1 p) 1 := by
  have hb : ∀ L ∈ wit4_info.lines, ∀ j, j < wit4_info.columns → L.getD j 0 < 2 := by
    intro L hL j hj
    have hc : wit4_info.columns = 2 := rfl
    rw [hc] at hj
    interval_cases j <;> fin_cases hL <;> decide
  have h4 := calculate_statistics_spec wit4_info 2 hb
  exact ⟨hb, h4.1 0, h4.2.1 1 1 1 (le_refl 1) (by decide) (by decide),
    h4.2.2 1 1 (le_refl 1) (by decide)⟩

/-! ## The claimed Bayes-chain formula for step (b), for comparison -/

/-- Formula stated by the claim for one cell of P(Q_c = q | X_c = k)
before renormalization (refinement reference, following the claim's words
rather than the source): sum over every previous-context index j of the
indicator contribution ratio_lo·[q_lo_j(k) = q] + ratio_hi·[q_hi_j(k) = q]
multiplied by the weight Σ_x P(Q_{c-1} = j | X_{c-1} = x) ·
P(X_c = k | X_{c-1} = x) · P(X_{c-1} = x), reading the same stored objects
the code reads. -/
def claim_qpmf_cell (in_pmfs : CondPmfList) (column : ℕ) (prev_qpmf_list : PmfListT)
    (q_alphabet_union prev_q_alphabet_union : List ℕ) (q_list : CondQuantizerList)
    (k idx : ℕ) : ℝ :=
  ∑ j in Finset.range prev_q_alphabet_union.length,
    (((if ((get_cond_quantizer_indexed q_list (column - 1) (2 * j)).getD dummyQ).q k =
          q_alphabet_union.getD idx 0
        then ((get_cond_quantizer_indexed q_list (column - 1) (2 * j)).getD dummyQ).ratio else 0) +
      (if ((get_cond_quantizer_indexed q_list (column - 1) (2 * j + 1)).getD dummyQ).q k =
          q_alphabet_union.getD idx 0
        then ((get_cond_quantizer_indexed q_list (column - 1) (2 * j + 1)).getD dummyQ).ratio
        else 0)) *
      ∑ x in Finset.range prev_qpmf_list.size,
        get_probability (prev_qpmf_list.pmfs x) j *
          get_probability (get_cond_pmf in_pmfs (column - 1) x) k *
          get_probability (in_pmfs.marginal_pmfs (column - 2)) x)

/-- Renormalized row of the claimed formula. -/
def claim_qpmf_prob (in_pmfs : CondPmfList) (column : ℕ) (prev_qpmf_list : PmfListT)
    (q_alphabet_union prev_q_alphabet_union : List ℕ) (q_list : CondQuantizerList)
    (k idx : ℕ) : ℝ :=
  claim_qpmf_cell in_pmfs column prev_qpmf_list q_alphabet_union prev_q_alphabet_union q_list k idx /
    ∑ i in Finset.range q_alphabet_union.length,
      claim_qpmf_cell in_pmfs column prev_qpmf_list q_alphabet_union prev_q_alphabet_union q_list k i

def c3_half_pmf : PmfT := ⟨2, fun _ => 1 / 2, true⟩

def c3_inpmfs : CondPmfList := ⟨2, 2, fun _ => c3_half_pmf, fun _ => c3_half_pmf⟩

def c3_prevq : PmfListT := ⟨2, fun _ => c3_half_pmf⟩

def qc_lo0 : QuantizerT := ⟨2, fun _ => 0, [0], 1 / 2⟩

def qc_hi0 : QuantizerT := ⟨2, fun _ => 0, [0], 1 / 2⟩

def qc_lo1 : QuantizerT := ⟨2, fun _ => 1, [1], 1 / 2⟩

def qc_hi1 : QuantizerT := ⟨2, fun _ => 1, [1], 1 / 2⟩

def c3_qlist : CondQuantizerList :=
  ⟨2, fun _ => [0, 1],
    fun c i =>
      if c = 1 then
        if i = 0 then some qc_lo0
        else if i = 1 then some qc_hi0
        else if i = 2 then some qc_lo1
        else if i = 3 then some qc_hi1
        else none
      else none,
    fun _ _ => 0, ⟨fun _ => 0, 0⟩⟩

/--
C3: divergence between compute_qpmf_list and the claimed Bayes-chain sum.
On a concrete column-2 configuration with two previous contexts (context 0
quantizing everything to 0, context 1 quantizing everything to 1, all
ratios 1/2, uniform statistics), the code's accumulator p_q_xq is never
reset across j and multiplies the cell inside the loop, yielding
P(Q = 0 | X = 0) = 2/3, whereas the claimed indicator-sum formula
renormalizes to 1/2.
-/
theorem compute_qpmf_list_divergence :
    get_probability
        ((compute_qpmf_list (alloc_pmf_list 2 2) c3_inpmfs 2 c3_prevq [0, 1] [0, 1]
          c3_qlist).pmfs 0) 0 = 2 / 3 ∧
      claim_qpmf_prob c3_inpmfs 2 c3_prevq [0, 1] [0, 1] c3_qlist 0 0 = 1 / 2 ∧
      (2 / 3 : ℝ) ≠ 1 / 2 := by
  refine ⟨?_, ?_, by norm_num⟩
  · norm_num [compute_qpmf_list, qpmf_cell, renormalize_pmf, pmf_total, get_probability,
      alloc_pmf_list, alloc_pmf, get_cond_quantizer_indexed, get_cond_pmf, cond_idx,
      c3_qlist, c3_inpmfs, c3_prevq, c3_half_pmf, qc_lo0, qc_hi0, qc_lo1, qc_hi1,
      List.range_succ, Finset.sum_range_succ]
  · norm_num [claim_qpmf_prob, claim_qpmf_cell, get_probability, get_cond_quantizer_indexed,
      get_cond_pmf, cond_idx, c3_qlist, c3_inpmfs, c3_prevq, c3_half_pmf,
      qc_lo0, qc_hi0, qc_lo1, qc_hi1, Finset.sum_range_succ]

/-! ## Alphabet-union propagation through the generator -/

lemma mem_insert_sorted (s x : ℕ) : ∀ (l : List ℕ), x ∈ insert_sorted s l ↔ x = s ∨ x ∈ l := by
  intro l
  induction l with
  | nil => simp [insert_sorted]
  | cons y ys ih =>
      unfold insert_sorted
      by_cases h1 : s < y
      · rw [if_pos h1]
        simp
      · rw [if_neg h1]
        by_cases h2 : s = y
        · rw [if_pos h2]
          subst h2
          simp
        · rw [if_neg h2]
          simp [ih]
          tauto

lemma mem_alphabet_union (x : ℕ) : ∀ (b a : List ℕ),
    x ∈ alphabet_union a b ↔ x ∈ a ∨ x ∈ b := by
  intro b
  induction b with
  | nil => simp [alphabet_union]
  | cons s bs ih =>
      intro a
      show x ∈ List.foldl (fun acc s => insert_sorted s acc) (insert_sorted s a) bs ↔ _
      rw [show List.foldl (fun acc s => insert_sorted s acc) (insert_sorted s a) bs =
        alphabet_union (insert_sorted s a) bs from rfl, ih, mem_insert_sorted]
      simp
      tauto

lemma mem_foldl_union (f : ℕ → List ℕ) (x : ℕ) : ∀ (js : List ℕ) (a : List ℕ),
    x ∈ js.foldl (fun u j => alphabet_union u (f j)) a ↔ x ∈ a ∨ ∃ j ∈ js, x ∈ f j := by
  intro js
  induction js with
  | nil => simp
  | cons j js ih =>
      intro a
      rw [List.foldl_cons, ih, mem_alphabet_union]
      simp
      tauto

lemma mem_getD_output (o : Option QuantizerT) (x : ℕ) :
    x ∈ (o.getD dummyQ).output_alphabet ↔ ∃ qz, o = some qz ∧ x ∈ qz.output_alphabet := by
  cases o with
  | none => simp [dummyQ]
  | some qz => simp

lemma get_symbol_index_lt (s : ℕ) : ∀ (a : List ℕ) (i : ℕ),
    get_symbol_index a s = some i → i < a.length := by
  intro a
  induction a with
  | nil => intro i h; exact absurd h (by simp [get_symbol_index])
  | cons y ys ih =>
      intro i h
      unfold get_symbol_index at h
      by_cases hy : y = s
      · rw [if_pos hy] at h
        cases h
        simp
      · rw [if_neg hy] at h
        cases hi : get_symbol_index ys s with
        | none => rw [hi] at h; exact absurd h (by simp)
        | some i' =>
            rw [hi] at h
            simp at h
            have := ih i' hi
            simp [← h]
            omega

lemma store_input_alphabets (lo hi : QuantizerT) (list : CondQuantizerList) (column prev : ℕ) :
    (store_cond_quantizers lo hi list column prev).input_alphabets = list.input_alphabets := by
  unfold store_cond_quantizers
  split <;> rfl

lemma store_columns (lo hi : QuantizerT) (list : CondQuantizerList) (column prev : ℕ) :
    (store_cond_quantizers lo hi list column prev).columns = list.columns := by
  unfold store_cond_quantizers
  split <;> rfl

lemma store_q_ne (lo hi : QuantizerT) (list : CondQuantizerList) (column prev c : ℕ)
    (h : c ≠ column) :
    (store_cond_quantizers lo hi list column prev).q c = list.q c := by
  unfold store_cond_quantizers
  split
  · exact Function.update_noteq h _ _
  · rfl

lemma store_q_at_some (lo hi : QuantizerT) (list : CondQuantizerList) (column prev idx i : ℕ)
    (h : get_symbol_index (list.input_alphabets column) prev = some idx) :
    (store_cond_quantizers lo hi list column prev).q column i =
      if i = 2 * idx then some lo else if i = 2 * idx + 1 then some hi
      else list.q column i := by
  unfold store_cond_quantizers
  rw [h]
  show (Function.update list.q column _) column i = _
  rw [Function.update_same]

lemma store_q_at_none (lo hi : QuantizerT) (list : CondQuantizerList) (column prev : ℕ)
    (h : get_symbol_index (list.input_alphabets column) prev = none) :
    store_cond_quantizers lo hi list column prev = list := by
  unfold store_cond_quantizers
  rw [h]

lemma init_input_alphabets (list : CondQuantizerList) (column : ℕ) (u : List ℕ) :
    (cond_quantizer_init_column list column u).input_alphabets =
      Function.update list.input_alphabets column u := rfl

lemma init_q_ne (list : CondQuantizerList) (column : ℕ) (u : List ℕ) (c : ℕ) (h : c ≠ column) :
    (cond_quantizer_init_column list column u).q c = list.q c :=
  Function.update_noteq h _ _

lemma init_q_same (list : CondQuantizerList) (column : ℕ) (u : List ℕ) (i : ℕ) :
    (cond_quantizer_init_column list column u).q column i = none := by
  show (Function.update list.q column (fun _ => none)) column i = none
  rw [Function.update_same]

lemma design_fold_input_alphabets (design : Design) (comp : ℝ) (xpmf : PmfListT)
    (u : List ℕ) (column : ℕ) : ∀ (js : List ℕ) (acc : CondQuantizerList × QuantizerT × QuantizerT × ℝ),
    ((js.foldl (design_col_step design comp xpmf u column) acc).1.input_alphabets
      = acc.1.input_alphabets) := by
  intro js
  induction js with
  | nil => intro acc; rfl
  | cons j js ih =>
      intro acc
      rw [List.foldl_cons, ih]
      simp only [design_col_step]
      rw [store_input_alphabets]

lemma design_fold_q_ne (design : Design) (comp : ℝ) (xpmf : PmfListT) (u : List ℕ)
    (column c : ℕ) (h : c ≠ column) :
    ∀ (js : List ℕ) (acc : CondQuantizerList × QuantizerT × QuantizerT × ℝ),
    ((js.foldl (design_col_step design comp xpmf u column) acc).1.q c = acc.1.q c) := by
  intro js
  induction js with
  | nil => intro acc; rfl
  | cons j js ih =>
      intro acc
      rw [List.foldl_cons, ih]
      simp only [design_col_step]
      rw [store_q_ne _ _ _ _ _ _ h]

lemma design_fold_q_none (design : Design) (comp : ℝ) (xpmf : PmfListT) (u : List ℕ)
    (column : ℕ) : ∀ (js : List ℕ) (acc : CondQuantizerList × QuantizerT × QuantizerT × ℝ),
    acc.1.input_alphabets column = u →
    (∀ i, 2 * u.length ≤ i → acc.1.q column i = none) →
    ∀ i, 2 * u.length ≤ i →
      ((js.foldl (design_col_step design comp xpmf u column) acc).1.q column i = none) := by
  intro js
  induction js with
  | nil => intro acc _ hnone i hi; exact hnone i hi
  | cons j js ih =>
      intro acc halpha hnone i hi
      rw [List.foldl_cons]
      refine ih _ ?_ ?_ i hi
      · simp only [design_col_step]
        rw [store_input_alphabets]
        exact halpha
      · intro i' hi'
        simp only [design_col_step]
        cases hidx : get_symbol_index (acc.1.input_alphabets column) (u.getD j 0) with
        | none =>
            rw [store_q_at_none _ _ _ _ _ hidx]
            exact hnone i' hi'
        | some idx =>
            have hlt : idx < u.length := by
              rw [halpha] at hidx
              exact get_symbol_index_lt _ _ _ hidx
            rw [store_q_at_some _ _ _ _ _ _ _ hidx, if_neg (by omega), if_neg (by omega)]
            exact hnone i' hi'

lemma mem_output_union_at (q_list : CondQuantizerList) (col p x : ℕ)
    (hp0 : p = 0 → q_list.q col 0 = none) :
    x ∈ output_union_at q_list col p ↔
      ∃ j, j < 2 * p ∧ ∃ qz, q_list.q col j = some qz ∧ x ∈ qz.output_alphabet := by
  unfold output_union_at duplicate_alphabet get_cond_quantizer_indexed
  rw [mem_foldl_union]
  by_cases hp : p = 0
  · subst hp
    rw [hp0 rfl]
    simp [dummyQ]
  · constructor
    · rintro (hbase | ⟨j, hj, hx⟩)
      · rw [mem_getD_output] at hbase
        obtain ⟨qz, hq, hxq⟩ := hbase
        exact ⟨0, by omega, qz, hq, hxq⟩
      · rw [List.mem_range'_1] at hj
        rw [mem_getD_output] at hx
        obtain ⟨qz, hq, hxq⟩ := hx
        exact ⟨j, by omega, qz, hq, hxq⟩
    · rintro ⟨j, hj, qz, hq, hxq⟩
      by_cases hj0 : j = 0
      · left
        rw [mem_getD_output]
        subst hj0
        exact ⟨qz, hq, hxq⟩
      · right
        refine ⟨j, ?_, ?_⟩
        · rw [List.mem_range'_1]
          omega
        · rw [mem_getD_output]
          exact ⟨qz, hq, hxq⟩

/-- Claimed relation for one column: the input alphabet is the union of
the output alphabets of the 2·|input alphabet of the previous column|
quantizers stored at the previous column. -/
def qMemRel (ql : CondQuantizerList) (c : ℕ) : Prop :=
  ∀ x, x ∈ ql.input_alphabets c ↔
    ∃ j, j < 2 * (ql.input_alphabets (c - 1)).length ∧
      ∃ qz, ql.q (c - 1) j = some qz ∧ x ∈ qz.output_alphabet

/-- Loop invariant of the generator after processing columns 1..n. -/
def GenInv (st : GenState) (n : ℕ) : Prop :=
  st.q_prev_output_union = st.q_list.input_alphabets n ∧
  st.q_list.input_alphabets 0 = [0] ∧
  (∀ i, 2 * (st.q_list.input_alphabets n).length ≤ i → st.q_list.q n i = none) ∧
  (∀ c, 1 ≤ c → c ≤ n → qMemRel st.q_list c)

lemma gen_step_props (design : Design) (ip : CondPmfList) (comp : ℝ) (A column : ℕ)
    (st : GenState) :
    (gen_step design ip comp A st column).q_prev_output_union =
        output_union_at st.q_list (column - 1) st.q_prev_output_union.length ∧
      (gen_step design ip comp A st column).q_list.input_alphabets =
        Function.update st.q_list.input_alphabets column
          (output_union_at st.q_list (column - 1) st.q_prev_output_union.length) ∧
      (∀ c, c ≠ column → (gen_step design ip comp A st column).q_list.q c = st.q_list.q c) ∧
      (∀ i, 2 * (output_union_at st.q_list (column - 1) st.q_prev_output_union.length).length ≤ i →
        (gen_step design ip comp A st column).q_list.q column i = none) := by
  refine ⟨rfl, ?_, ?_, ?_⟩
  · show ((List.range _).foldl (design_col_step _ _ _ _ _) _).1.input_alphabets = _
    rw [design_fold_input_alphabets, init_input_alphabets]
  · intro c hc
    show ((List.range _).foldl (design_col_step _ _ _ _ _) _).1.q c = _
    rw [design_fold_q_ne _ _ _ _ _ _ hc, init_q_ne _ _ _ _ hc]
  · intro i hi
    show ((List.range _).foldl (design_col_step _ _ _ _ _) _).1.q column i = none
    refine design_fold_q_none _ _ _ _ _ _ _ ?_ ?_ i hi
    · rw [init_input_alphabets, Function.update_same]
    · intro i' _
      exact init_q_same _ _ _ _

lemma gen_step_inv (design : Design) (ip : CondPmfList) (comp : ℝ) (A n : ℕ)
    (st : GenState) (hinv : GenInv st n) :
    GenInv (gen_step design ip comp A st (n + 1)) (n + 1) := by
  obtain ⟨hprev, h0, hnone, hrel⟩ := hinv
  obtain ⟨hp1, hp2, hp3, hp4⟩ := gen_step_props design ip comp A (n + 1) st
  simp only [Nat.add_sub_cancel] at hp1 hp2 hp4
  have hp0 : st.q_prev_output_union.length = 0 → st.q_list.q n 0 = none := by
    intro hlen
    apply hnone
    rw [← hprev, hlen]
  refine ⟨?_, ?_, ?_, ?_⟩
  · rw [hp1, hp2, Function.update_same]
  · rw [hp2, Function.update_noteq (by omega) _ _]
    exact h0
  · intro i hi
    apply hp4
    rw [hp2, Function.update_same] at hi
    exact hi
  · intro c hc1 hc2
    by_cases hc : c = n + 1
    · subst hc
      intro x
      rw [hp2, Function.update_same, Nat.add_sub_cancel, Function.update_noteq (by omega) _ _,
        hp3 n (by omega)]
      rw [mem_output_union_at st.q_list n st.q_prev_output_union.length x
        (fun hl => hp0 hl)]
      rw [hprev]
    · have hcn : c ≤ n := by omega
      intro x
      rw [hp2, Function.update_noteq hc _ _, Function.update_noteq (by omega) _ _,
        hp3 (c - 1) (by omega)]
      exact hrel c hc1 hcn x

lemma gen_init_inv (design : Design) (ip : CondPmfList) (comp : ℝ) (A columns : ℕ) :
    GenInv (gen_init design ip comp A columns) 0 := by
  have hlook : get_symbol_index
      ((cond_quantizer_init_column (alloc_conditional_quantizer_list columns) 0
        (alloc_alphabet 1)).input_alphabets 0) 0 = some 0 := by
    rw [init_input_alphabets, Function.update_same]
    rfl
  have hial : (gen_init design ip comp A columns).q_list.input_alphabets 0 = [0] := by
    simp only [gen_init]
    rw [store_input_alphabets, init_input_alphabets, Function.update_same]
    rfl
  refine ⟨?_, hial, ?_, ?_⟩
  · rw [hial]
    rfl
  · intro i hi
    rw [hial] at hi
    simp only [gen_init]
    rw [store_q_at_some _ _ _ _ _ _ _ hlook]
    simp only [List.length_cons, List.length_nil] at hi
    rw [if_neg (by omega), if_neg (by omega)]
    exact init_q_same _ _ _ _
  · intro c hc1 hc2
    omega

lemma gen_inv_fold (design : Design) (ip : CondPmfList) (comp : ℝ) (A columns : ℕ) :
    ∀ n : ℕ,
      GenInv ((List.range' 1 n).foldl (gen_step design ip comp A)
        (gen_init design ip comp A columns)) n := by
  intro n
  induction n with
  | zero => exact gen_init_inv design ip comp A columns
  | succ n ih =>
      rw [range'_append_one 1 n, List.foldl_append, List.foldl_cons, List.foldl_nil]
      have h1n : 1 + n = n + 1 := by omega
      rw [h1n]
      exact gen_step_inv design ip comp A n _ ih

/--
C2: for every column c with 1 ≤ c < columns of the quantizer store built
by generate_codebooks, a symbol belongs to input_alphabet[c] exactly when
it belongs to the output alphabet of one of the 2·|input_alphabet[c-1]|
quantizers (low and high of every context) stored at column c-1; and
input_alphabet[0] is the singleton [0].
-/
theorem generate_codebooks_input_alphabet_union (design : Design) (info : QualityFileT)
    (in_pmfs0 : CondPmfList) (comp : ℝ) (c : ℕ) (hc : 1 ≤ c) (hcc : c < info.columns) :
    (∀ x, x ∈ (generate_codebooks design info in_pmfs0 comp).input_alphabets c ↔
      ∃ j, j < 2 * ((generate_codebooks design info in_pmfs0 comp).input_alphabets (c - 1)).length ∧
        ∃ qz, (generate_codebooks design info in_pmfs0 comp).q (c - 1) j = some qz ∧
          x ∈ qz.output_alphabet) ∧
      (generate_codebooks design info in_pmfs0 comp).input_alphabets 0 = [0] := by
  have hinv := gen_inv_fold design (calculate_statistics info in_pmfs0) comp
    (calculate_statistics info in_pmfs0).asize info.columns (info.columns - 1)
  exact ⟨hinv.2.2.2 c hc (by omega), hinv.2.1⟩

def design0 : Design := fun _ _ => (fun x => x, [0])

def wit2_info : QualityFileT := ⟨2, [[0, 0]]⟩

/--
C2 witness: on a concrete one-line, two-column training set with the
trivial designer, column 1's input alphabet is characterized by the union
of the outputs of the two column-0 quantizers, and column 0's input
alphabet is [0].
-/
theorem generate_codebooks_input_alphabet_union_witness :
    (1 : ℕ) ≤ 1 ∧ 1 < wit2_info.columns ∧
      ((∀ x, x ∈ (generate_codebooks design0 wit2_info (alloc_conditional_pmf_list 2 2)
          (1 / 2)).input_alphabets 1 ↔
        ∃ j, j < 2 * ((generate_codebooks design0 wit2_info (alloc_conditional_pmf_list 2 2)
            (1 / 2)).input_alphabets (1 - 1)).length ∧
          ∃ qz, (generate_codebooks design0 wit2_info (alloc_conditional_pmf_list 2 2)
              (1 / 2)).q (1 - 1) j = some qz ∧ x ∈ qz.output_alphabet) ∧
        (generate_codebooks design0 wit2_info (alloc_conditional_pmf_list 2 2)
          (1 / 2)).input_alphabets 0 = [0]) :=
  ⟨le_refl 1, by decide,
    generate_codebooks_input_alphabet_union design0 wit2_info
      (alloc_conditional_pmf_list 2 2) (1 / 2) 1 (le_refl 1) (by decide)⟩

/-! ## Column 0 of the generator -/

lemma gen_fold_q_zero (design : Design) (ip : CondPmfList) (comp : ℝ) (A : ℕ) :
    ∀ (js : List ℕ) (st : GenState), (∀ j ∈ js, 1 ≤ j) →
      ((js.foldl (gen_step design ip comp A) st).q_list.q 0 = st.q_list.q 0) := by
  intro js
  induction js with
  | nil => intro st _; rfl
  | cons j js ih =>
      intro st hj
      rw [List.foldl_cons, ih _ (fun x hx => hj x (List.mem_cons_of_mem _ hx))]
      exact (gen_step_props design ip comp A j st).2.2.1 0
        (by have := hj j (List.mem_cons_self _ _); omega)

lemma gen_init_lookup (columns : ℕ) :
    get_symbol_index
      ((cond_quantizer_init_column (alloc_conditional_quantizer_list columns) 0
        (alloc_alphabet 1)).input_alphabets 0) 0 = some 0 := by
  rw [init_input_alphabets, Function.update_same]
  rfl

lemma gen_init_q_zero (design : Design) (ip : CondPmfList) (comp : ℝ) (A columns : ℕ) :
    (gen_init design ip comp A columns).q_list.q 0 0 =
      some (generate_quantizer design (get_cond_pmf ip 0 0)
        (find_states (get_entropy (get_cond_pmf ip 0 0) * comp)).low
        (find_states (get_entropy (get_cond_pmf ip 0 0) * comp)).ratio) ∧
    (gen_init design ip comp A columns).q_list.q 0 1 =
      some (generate_quantizer design (get_cond_pmf ip 0 0)
        (find_states (get_entropy (get_cond_pmf ip 0 0) * comp)).high
        (1 - (find_states (get_entropy (get_cond_pmf ip 0 0) * comp)).ratio)) := by
  constructor
  · simp only [gen_init]
    rw [store_q_at_some _ _ _ _ _ _ _ (gen_init_lookup columns)]
    rw [if_pos rfl]
  · simp only [gen_init]
    rw [store_q_at_some _ _ _ _ _ _ _ (gen_init_lookup columns)]
    rw [if_neg (by omega), if_pos rfl]

/--
C7 amended: with target entropy H(column 0)·comp = 0.75 the bit allocator
yields low = 1, high = 2 and ratio r = (0.75-1)/(0-1) = 1/4 (not the
claimed low = 2, high = 3), and the store exposes both quantizers for
column 0: the low one (1 state, ratio 1/4) at slot 0 and the high one
(2 states, ratio 3/4) at slot 1.
-/
theorem generate_codebooks_s3_amended (design : Design) (info : QualityFileT)
    (in_pmfs0 : CondPmfList) (comp : ℝ)
    (hent : get_entropy (get_cond_pmf (calculate_statistics info in_pmfs0) 0 0) * comp = 3 / 4) :
    (find_states ((3 : ℝ) / 4)).low = 1 ∧ (find_states ((3 : ℝ) / 4)).high = 2 ∧
      (find_states ((3 : ℝ) / 4)).ratio = 1 / 4 ∧
      (generate_codebooks design info in_pmfs0 comp).q 0 0 =
        some (generate_quantizer design (get_cond_pmf (calculate_statistics info in_pmfs0) 0 0)
          1 (1 / 4)) ∧
      (generate_codebooks design info in_pmfs0 comp).q 0 1 =
        some (generate_quantizer design (get_cond_pmf (calculate_statistics info in_pmfs0) 0 0)
          2 (3 / 4)) := by
  have hfs := find_states_three_quarters
  have hq34 : (1 : ℝ) - 1 / 4 = 3 / 4 := by norm_num
  refine ⟨by rw [hfs], by rw [hfs], by rw [hfs], ?_, ?_⟩
  · show ((List.range' 1 (info.columns - 1)).foldl
        (gen_step design (calculate_statistics info in_pmfs0) comp
          (calculate_statistics info in_pmfs0).asize)
        (gen_init design (calculate_statistics info in_pmfs0) comp
          (calculate_statistics info in_pmfs0).asize info.columns)).q_list.q 0 0 = _
    rw [gen_fold_q_zero design _ comp _ _ _
      (fun j hj => by rw [List.mem_range'_1] at hj; omega)]
    rw [(gen_init_q_zero design (calculate_statistics info in_pmfs0) comp
      (calculate_statistics info in_pmfs0).asize info.columns).1, hent, hfs]
  · show ((List.range' 1 (info.columns - 1)).foldl
        (gen_step design (calculate_statistics info in_pmfs0) comp
          (calculate_statistics info in_pmfs0).asize)
        (gen_init design (calculate_statistics info in_pmfs0) comp
          (calculate_statistics info in_pmfs0).asize info.columns)).q_list.q 0 1 = _
    rw [gen_fold_q_zero design _ comp _ _ _
      (fun j hj => by rw [List.mem_range'_1] at hj; omega)]
    rw [(gen_init_q_zero design (calculate_statistics info in_pmfs0) comp
      (calculate_statistics info in_pmfs0).asize info.columns).2, hent, hfs, hq34]

def wit7_info : QualityFileT := ⟨1, [[0], [1]]⟩

lemma logb_two_half : Real.logb 2 ((1 : ℝ) / 2) = -1 := by
  rw [show (1 : ℝ) / 2 = 2⁻¹ by norm_num, Real.logb_inv,
    Real.logb_self_eq_one (by norm_num)]

lemma wit7_entropy :
    get_entropy (get_cond_pmf (calculate_statistics wit7_info
      (alloc_conditional_pmf_list 2 1)) 0 0) = 1 := by
  have hpmf : get_cond_pmf (calculate_statistics wit7_info (alloc_conditional_pmf_list 2 1)) 0 0
      = pmf_increment (pmf_increment (alloc_pmf 2) 0) 1 := rfl
  have hp0 : get_probability (pmf_increment (pmf_increment (alloc_pmf 2) 0) 1) 0 = 1 / 2 := by
    simp [get_probability, pmf_increment, alloc_pmf, pmf_total, Finset.sum_range_succ,
      Function.update_apply]
    norm_num
  have hp1 : get_probability (pmf_increment (pmf_increment (alloc_pmf 2) 0) 1) 1 = 1 / 2 := by
    simp [get_probability, pmf_increment, alloc_pmf, pmf_total, Finset.sum_range_succ,
      Function.update_apply]
    norm_num
  rw [hpmf]
  show -∑ i in Finset.range 2, _ = (1 : ℝ)
  rw [Finset.sum_range_succ, Finset.sum_range_succ, Finset.sum_range_zero, hp0, hp1,
    logb_two_half]
  norm_num

/--
C7 witness: on the concrete one-column training set [[0],[1]] (uniform,
entropy exactly 1 bit) with comp = 3/4, the amended S3 statement holds:
the allocator returns (low, high, ratio) = (1, 2, 1/4) and both column-0
quantizers are exposed by the store.
-/
theorem generate_codebooks_s3_amended_witness :
    get_entropy (get_cond_pmf (calculate_statistics wit7_info
        (alloc_conditional_pmf_list 2 1)) 0 0) * (3 / 4) = 3 / 4 ∧
      ((find_states ((3 : ℝ) / 4)).low = 1 ∧ (find_states ((3 : ℝ) / 4)).high = 2 ∧
        (find_states ((3 : ℝ) / 4)).ratio = 1 / 4 ∧
        (generate_codebooks design0 wit7_info (alloc_conditional_pmf_list 2 1) (3 / 4)).q 0 0 =
          some (generate_quantizer design0
            (get_cond_pmf (calculate_statistics wit7_info (alloc_conditional_pmf_list 2 1)) 0 0)
            1 (1 / 4)) ∧
        (generate_codebooks design0 wit7_info (alloc_conditional_pmf_list 2 1) (3 / 4)).q 0 1 =
          some (generate_quantizer design0
            (get_cond_pmf (calculate_statistics wit7_info (alloc_conditional_pmf_list 2 1)) 0 0)
            2 (3 / 4))) :=
  ⟨by rw [wit7_entropy]; norm_num,
    generate_codebooks_s3_amended design0 wit7_info (alloc_conditional_pmf_list 2 1) (3 / 4)
      (by rw [wit7_entropy]; norm_num)⟩

/-- Column 0 of any generated store holds the designed low quantizer at
slot 0 and the designed high quantizer at slot 1, for every designer,
training set and comp: generate_codebooks designs and stores both members
of the pair unconditionally (codebook.c lines 453-458). -/
lemma generate_codebooks_col0_slots (design : Design) (info : QualityFileT)
    (in_pmfs0 : CondPmfList) (comp : ℝ) :
    (generate_codebooks design info in_pmfs0 comp).q 0 0 =
      some (generate_quantizer design (get_cond_pmf (calculate_statistics info in_pmfs0) 0 0)
        (find_states (get_entropy (get_cond_pmf (calculate_statistics info in_pmfs0) 0 0)
          * comp)).low
        (find_states (get_entropy (get_cond_pmf (calculate_statistics info in_pmfs0) 0 0)
          * comp)).ratio) ∧
    (generate_codebooks design info in_pmfs0 comp).q 0 1 =
      some (generate_quantizer design (get_cond_pmf (calculate_statistics info in_pmfs0) 0 0)
        (find_states (get_entropy (get_cond_pmf (calculate_statistics info in_pmfs0) 0 0)
          * comp)).high
        (1 - (find_states (get_entropy (get_cond_pmf (calculate_statistics info in_pmfs0) 0 0)
          * comp)).ratio)) := by
  constructor
  · show ((List.range' 1 (info.columns - 1)).foldl
        (gen_step design (calculate_statistics info in_pmfs0) comp
          (calculate_statistics info in_pmfs0).asize)
        (gen_init design (calculate_statistics info in_pmfs0) comp
          (calculate_statistics info in_pmfs0).asize info.columns)).q_list.q 0 0 = _
    rw [gen_fold_q_zero design _ comp _ _ _
      (fun j hj => by rw [List.mem_range'_1] at hj; omega)]
    exact (gen_init_q_zero design (calculate_statistics info in_pmfs0) comp
      (calculate_statistics info in_pmfs0).asize info.columns).1
  · show ((List.range' 1 (info.columns - 1)).foldl
        (gen_step design (calculate_statistics info in_pmfs0) comp
          (calculate_statistics info in_pmfs0).asize)
        (gen_init design (calculate_statistics info in_pmfs0) comp
          (calculate_statistics info in_pmfs0).asize info.columns)).q_list.q 0 1 = _
    rw [gen_fold_q_zero design _ comp _ _ _
      (fun j hj => by rw [List.mem_range'_1] at hj; omega)]
    exact (gen_init_q_zero design (calculate_statistics info in_pmfs0) comp
      (calculate_statistics info in_pmfs0).asize info.columns).2

/--
C6 amended: for H = 0 the allocator returns low = 1 and high = 1, and
whenever the allocation gives low = high the computed ratio is the
division-by-zero form (H - log₂ high)/0 — NaN in C, 0 in the real-number
model — rather than 1; find_states has no special case for low = high,
and the low quantizer is not emitted alone: generate_codebooks always
designs and stores both column-0 quantizers, the low one at slot 0 and
the high one at slot 1, for every designer, training set and comp.
-/
theorem find_states_low_eq_high_amended (H : ℝ) (_h0 : 0 ≤ H)
    (heq : (find_states H).low = (find_states H).high)
    (design : Design) (info : QualityFileT) (in_pmfs0 : CondPmfList) (comp : ℝ) :
    (find_states H).ratio = 0 ∧ (find_states 0).low = 1 ∧ (find_states 0).high = 1 ∧
      (generate_codebooks design info in_pmfs0 comp).q 0 0 =
        some (generate_quantizer design (get_cond_pmf (calculate_statistics info in_pmfs0) 0 0)
          (find_states (get_entropy (get_cond_pmf (calculate_statistics info in_pmfs0) 0 0)
            * comp)).low
          (find_states (get_entropy (get_cond_pmf (calculate_statistics info in_pmfs0) 0 0)
            * comp)).ratio) ∧
      (generate_codebooks design info in_pmfs0 comp).q 0 1 =
        some (generate_quantizer design (get_cond_pmf (calculate_statistics info in_pmfs0) 0 0)
          (find_states (get_entropy (get_cond_pmf (calculate_statistics info in_pmfs0) 0 0)
            * comp)).high
          (1 - (find_states (get_entropy (get_cond_pmf (calculate_statistics info in_pmfs0) 0 0)
            * comp)).ratio)) := by
  refine ⟨?_, by rw [find_states_zero], by rw [find_states_zero],
    (generate_codebooks_col0_slots design info in_pmfs0 comp).1,
    (generate_codebooks_col0_slots design info in_pmfs0 comp).2⟩
  have heq2 : ⌊(2 : ℝ) ^ H⌋₊ = ⌈(2 : ℝ) ^ H⌉₊ := heq
  show (H - Real.logb 2 ((⌈(2 : ℝ) ^ H⌉₊ : ℝ))) /
      (Real.logb 2 ((⌊(2 : ℝ) ^ H⌋₊ : ℝ)) - Real.logb 2 ((⌈(2 : ℝ) ^ H⌉₊ : ℝ))) = 0
  rw [heq2, sub_self, div_zero]

/--
C6 witness: at H = 0 the hypotheses of the amended statement hold, the
ratio produced by the allocator is 0, and on a concrete store built with
the trivial designer both column-0 quantizers are stored.
-/
theorem find_states_low_eq_high_amended_witness :
    (0 : ℝ) ≤ 0 ∧ (find_states 0).low = (find_states 0).high ∧
      ((find_states 0).ratio = 0 ∧ (find_states 0).low = 1 ∧ (find_states 0).high = 1 ∧
        (generate_codebooks design0 wit2_info (alloc_conditional_pmf_list 2 2) (1 / 2)).q 0 0 =
          some (generate_quantizer design0
            (get_cond_pmf (calculate_statistics wit2_info (alloc_conditional_pmf_list 2 2)) 0 0)
            (find_states (get_entropy (get_cond_pmf
              (calculate_statistics wit2_info (alloc_conditional_pmf_list 2 2)) 0 0)
              * (1 / 2))).low
            (find_states (get_entropy (get_cond_pmf
              (calculate_statistics wit2_info (alloc_conditional_pmf_list 2 2)) 0 0)
              * (1 / 2))).ratio) ∧
        (generate_codebooks design0 wit2_info (alloc_conditional_pmf_list 2 2) (1 / 2)).q 0 1 =
          some (generate_quantizer design0
            (get_cond_pmf (calculate_statistics wit2_info (alloc_conditional_pmf_list 2 2)) 0 0)
            (find_states (get_entropy (get_cond_pmf
              (calculate_statistics wit2_info (alloc_conditional_pmf_list 2 2)) 0 0)
              * (1 / 2))).high
            (1 - (find_states (get_entropy (get_cond_pmf
              (calculate_statistics wit2_info (alloc_conditional_pmf_list 2 2)) 0 0)
              * (1 / 2))).ratio))) :=
  ⟨le_refl 0, by rw [find_states_zero],
    find_states_low_eq_high_amended 0 (le_refl 0) (by rw [find_states_zero])
      design0 wit2_info (alloc_conditional_pmf_list 2 2) (1 / 2)⟩

end

end QVZ
